import Mathlib

/-!
Verification of the scilpy DWI utilities: a shallow embedding of
`scilpy/dwi/utils.py`, `scilpy/io/gradient_table.py`,
`scripts/scil_remove_invalid_streamlines.py` and
`scripts/scil_validate_bids.py`, together with theorems about the
embedded functions.

Arrays are modelled as lists: a 4D volume is a list (over the last axis)
of flattened 3D volumes, each a `List ℚ`.  numpy boolean indexing and
boolean-mask assignment along the last axis are modelled by
`selectByMask` and `maskedWrite`.
-/

/-- One 3D volume, flattened to a list of rational intensities. -/
abbrev Volume := List ℚ

/-- A 4D DWI image: the number of voxels of the spatial grid and the list
of 3D volumes along the last axis. -/
structure DWIImage where
  spatial : ℕ
  vols : List Volume

/-- numpy boolean indexing `a[..., mask]` along the last axis: keep the
entries whose mask bit is true. -/
def selectByMask {α : Type} : List α → List Bool → List α
  | [], _ => []
  | _, [] => []
  | a :: as, b :: bs => if b then a :: selectByMask as bs else selectByMask as bs

/-- numpy boolean-mask assignment `a[..., mask] = src` along the last
axis: entries at true mask bits are replaced, in order, by the entries of
`src`. -/
def maskedWrite {α : Type} : List α → List Bool → List α → List α
  | [], _, _ => []
  | as, [], _ => as
  | a :: as, b :: bs, src =>
    if b then
      match src with
      | [] => a :: maskedWrite as bs []
      | v :: vs => v :: maskedWrite as bs vs
    else a :: maskedWrite as bs src

/-- Modelled from the spec: `volume_iterator` (in `scilpy.image.utils`,
whose source is not part of this snapshot) "streams a 4D volume in
fixed-size blocks along the last axis to bound memory use".  It yields,
for each block, the list of volume indices of the block together with the
corresponding volumes, covering `[start, stop)` in blocks of `block_size`.
The first argument is fuel making the recursion structural; `stop - start`
suffices. -/
def volume_iterator_go (vols : List Volume) (bs : ℕ) :
    ℕ → ℕ → ℕ → List (List ℕ × List Volume)
  | 0, _, _ => []
  | fuel + 1, s, stop =>
    if s < stop ∧ 0 < bs then
      let e := min (s + bs) stop
      (List.range' s (e - s), (vols.drop s).take (e - s)) ::
        volume_iterator_go vols bs fuel e stop
    else []

/-- Modelled from the spec: the volume iterator over `[start, stop)`. -/
def volume_iterator (vols : List Volume) (bs start stop : ℕ) :
    List (List ℕ × List Volume) :=
  volume_iterator_go vols bs (stop - start) start stop

/-- Modelled from the spec: `get_shell_indices` (in
`scilpy.gradients.bvec_bval_tools`, whose source is not part of this
snapshot) selects the indices of the volumes whose b-value matches the
target shell within the tolerance: "a b-value of 2000 and a tolerance of
20 will extract all volumes with a b-values from 1980 to 2020". -/
def get_shell_indices (bvals : List ℚ) (shell tol : ℚ) : List ℕ :=
  (List.range bvals.length).filter fun i =>
    decide (shell - tol ≤ bvals.getD i 0 ∧ bvals.getD i 0 ≤ shell + tol)

/-- `np.unique` of a list of naturals (after `np.sort`/`np.hstack`): the
sorted list of the distinct values occurring in it. -/
def npUnique (l : List ℕ) : List ℕ :=
  (List.range (l.foldr max 0 + 1)).filter fun i => decide (i ∈ l)

/-- numpy `astype(int)` on a rational: truncation toward zero. -/
def npAsInt (q : ℚ) : ℤ :=
  if 0 ≤ q then Rat.floor q else Rat.ceil q

/-- The all-zero volume `np.zeros(spatial)`. -/
def zeroVol (spatial : ℕ) : Volume := List.replicate spatial 0

/-- Pointwise addition of two volumes. -/
def addVol (a b : Volume) : Volume := List.zipWith (· + ·) a b

/-- `np.sum(data, -1)`: sum of a list of volumes along the last axis. -/
def sumLastAxis (spatial : ℕ) (vs : List Volume) : Volume :=
  vs.foldl addVol (zeroVol spatial)

/-- Division of every entry of a volume by a scalar. -/
def scaleVol (c : ℚ) (v : Volume) : Volume := v.map (· / c)

/-- The merged index list of `extract_dwi_shell`:
`np.unique(np.sort(np.hstack(indices)))` over the per-shell index
lists. -/
def shell_indices (bvals : List ℚ) (bvals_to_extract : List ℚ) (tol : ℚ) :
    List ℕ :=
  npUnique ((bvals_to_extract.map fun shell => get_shell_indices bvals shell tol).flatten)

/-- `extract_dwi_shell` from `scilpy/dwi/utils.py`: gather the indices
matching the requested shells, raise when empty, then fill the output
volume block by block via the volume iterator using boolean-mask
selection and assignment. -/
def extract_dwi_shell (dwi : DWIImage) (bvals : List ℚ) (bvecs : List (List ℚ))
    (bvals_to_extract : List ℚ) (tol : ℚ) (block_size : Option ℕ) :
    Except String (List ℕ × List Volume × List (List ℤ) × List (List ℚ)) :=
  let indices := shell_indices bvals bvals_to_extract tol
  if indices.isEmpty then
    Except.error "There are no volumes that have the supplied b-values"
  else
    let bs := block_size.getD dwi.vols.length
    let init := List.replicate indices.length (zeroVol dwi.spatial)
    let shell_data := (volume_iterator dwi.vols bs 0 dwi.vols.length).foldl
      (fun sd blk =>
        maskedWrite sd (indices.map fun i => decide (i ∈ blk.1))
          (selectByMask blk.2 (blk.1.map fun i => decide (i ∈ indices)))) init
    let output_bvals := [indices.map fun i => npAsInt (bvals.getD i 0)]
    let output_bvecs := indices.map fun i => bvecs.getD i []
    Except.ok (indices, shell_data, output_bvals, output_bvecs)

/-- The b0 extraction strategies of `scilpy.gradients.bvec_bval_tools`. -/
inductive B0ExtractionStrategy where
  | FIRST
  | MEAN
  | ALL
deriving DecidableEq

/-- `np.min` of a list of naturals (meaningful on nonempty lists). -/
def npMin (l : List ℕ) : ℕ := l.foldr min (l.headD 0)

/-- Worker for `np.ma.notmasked_contiguous`: scan the mask keeping the
current position and the start of the run being read, emitting each
maximal contiguous run of true entries as a half-open interval. -/
def b0_clusters_go : List Bool → ℕ → Option ℕ → List (ℕ × ℕ)
  | [], _, none => []
  | [], p, some s => [(s, p)]
  | true :: rest, p, none => b0_clusters_go rest (p + 1) (some p)
  | true :: rest, p, some s => b0_clusters_go rest (p + 1) (some s)
  | false :: rest, p, none => b0_clusters_go rest (p + 1) none
  | false :: rest, p, some s => (s, p) :: b0_clusters_go rest (p + 1) none

/-- `np.ma.notmasked_contiguous` on a boolean mask: the maximal contiguous
runs of true entries, in increasing order, as half-open intervals. -/
def b0_clusters (mask : List Bool) : List (ℕ × ℕ) := b0_clusters_go mask 0 none

/-- `extract_b0` from `scilpy/dwi/utils.py`. -/
def extract_b0 (dwi : DWIImage) (b0_mask : List Bool) (extract_in_cluster : Bool)
    (strategy : B0ExtractionStrategy) (block_size : Option ℕ) : List Volume :=
  let indices := (List.range b0_mask.length).filter fun i => b0_mask.getD i false
  let bs := block_size.getD dwi.vols.length
  let zv := zeroVol dwi.spatial
  if extract_in_cluster = false ∧ strategy = B0ExtractionStrategy.FIRST then
    [dwi.vols.getD (npMin indices) zv]
  else
    let cls := b0_clusters b0_mask
    if extract_in_cluster = true ∨ strategy = B0ExtractionStrategy.ALL then
      let time_d := if strategy = B0ExtractionStrategy.ALL then indices.length
                    else cls.length
      (List.enumFrom 0 cls).foldl (fun ob p =>
        if strategy = B0ExtractionStrategy.FIRST then
          ob.set p.1 (dwi.vols.getD p.2.1 zv)
        else
          let ob2 := (volume_iterator dwi.vols bs p.2.1 p.2.2).foldl (fun ob2 blk =>
            if strategy = B0ExtractionStrategy.ALL then
              maskedWrite ob2 (indices.map fun i => decide (i ∈ blk.1)) blk.2
            else
              ob2.set p.1 (addVol (ob2.getD p.1 zv) (sumLastAxis dwi.spatial blk.2))) ob
          if strategy = B0ExtractionStrategy.MEAN then
            ob2.set p.1 (scaleVol ((p.2.2 - p.2.1 : ℕ) : ℚ) (ob2.getD p.1 zv))
          else ob2) (List.replicate time_d zv)
    else
      let total := cls.foldl (fun acc cl =>
        (volume_iterator dwi.vols bs cl.1 cl.2).foldl (fun acc blk =>
          addVol acc (sumLastAxis dwi.spatial blk.2)) acc) zv
      [scaleVol (indices.length : ℚ) total]

/-- `_rescale_intensity` from `scilpy/dwi/utils.py`. -/
def _rescale_intensity (val slope in_max bc_max : ℚ) : ℚ :=
  in_max - slope * (bc_max - val)

/-- `np.amin` of a 2D array modelled as a list of rows. -/
def amin2 (d : List (List ℚ)) : ℚ := d.flatten.foldr min (d.flatten.headD 0)

/-- `np.amax` of a 2D array modelled as a list of rows. -/
def amax2 (d : List (List ℚ)) : ℚ := d.flatten.foldr max (d.flatten.headD 0)

/-- The chunk boundaries of `rescale_dwi`:
`np.append(np.arange(0, n, 100000), n)`. -/
def rescale_chunks (n : ℕ) : List ℕ :=
  List.range' 0 ((n + 99999) / 100000) 100000 ++ [n]

/-- numpy slice assignment `l[a:b] = repl` on the first axis. -/
def setSlice (l : List (List ℚ)) (a b : ℕ) (repl : List (List ℚ)) :
    List (List ℚ) :=
  l.take a ++ repl ++ l.drop b

/-- The chunked rewrite loop of `rescale_dwi`: for every consecutive pair
of chunk boundaries, read the slice of `bc`, rescale it elementwise and
write it back. -/
def rescale_loop (slope in_max bc_max : ℚ) (pairs : List (ℕ × ℕ))
    (bc : List (List ℚ)) : List (List ℚ) :=
  pairs.foldl (fun bc p =>
    setSlice bc p.1 p.2
      (((bc.drop p.1).take (p.2 - p.1)).map
        (List.map fun v => _rescale_intensity v slope in_max bc_max))) bc

/-- `rescale_dwi` from `scilpy/dwi/utils.py`: rescale the bias-corrected
data back into the intensity range of the input data, chunk by chunk over
the first axis. -/
def rescale_dwi (in_data bc_data : List (List ℚ)) : List (List ℚ) :=
  let in_min := amin2 in_data
  let in_max := amax2 in_data
  let bc_min := amin2 bc_data
  let bc_max := amax2 bc_data
  let slope := (in_max - in_min) / (bc_max - bc_min)
  let chunk := rescale_chunks in_data.length
  rescale_loop slope in_max bc_max (chunk.zip chunk.tail) bc_data

/-- The state of the two arrays handled by `rescale_dwi`: the input DWI
data and the bias-correction data, as two mutable arrays. -/
structure RescaleState where
  in_data : List (List ℚ)
  bc_data : List (List ℚ)

/-- State-passing version of `rescale_dwi`, mirroring which array each
statement of the Python code writes: every loop iteration writes a slice
of `bc_data` only, and the function returns the `bc_data` array. -/
def rescale_dwi_st (st : RescaleState) : RescaleState × List (List ℚ) :=
  let in_min := amin2 st.in_data
  let in_max := amax2 st.in_data
  let bc_min := amin2 st.bc_data
  let bc_max := amax2 st.bc_data
  let slope := (in_max - in_min) / (bc_max - bc_min)
  let chunk := rescale_chunks st.in_data.length
  let final := (chunk.zip chunk.tail).foldl (fun s p =>
    ⟨s.in_data,
     setSlice s.bc_data p.1 p.2
       (((s.bc_data.drop p.1).take (p.2 - p.1)).map
         (List.map fun v => _rescale_intensity v slope in_max bc_max))⟩) st
  (final, final.bc_data)

/-- `save_gradient_sampling_mrtrix` from `scilpy/io/gradient_table.py`:
the written file, one line per column of `bvecs`, holding the three
b-vector components and the b-value `bvals[shell_idx[idx]]`. -/
def save_gradient_sampling_mrtrix (bvecs : List (List ℚ)) (shell_idx : List ℕ)
    (bvals : List ℚ) : List (ℚ × ℚ × ℚ × ℚ) :=
  (List.range (bvecs.headD []).length).map fun idx =>
    ((bvecs.getD 0 []).getD idx 0, (bvecs.getD 1 []).getD idx 0,
     (bvecs.getD 2 []).getD idx 0, bvals.getD (shell_idx.getD idx 0) 0)

/-- `save_gradient_sampling_fsl` from `scilpy/io/gradient_table.py`: the
pair (bvec file, bval file); the bvec file holds the `bvecs` array, the
bval file a single row of the b-values selected by `shell_idx`. -/
def save_gradient_sampling_fsl (bvecs : List (List ℚ)) (shell_idx : List ℕ)
    (bvals : List ℚ) : List (List ℚ) × List (List ℚ) :=
  (bvecs, [shell_idx.map fun idx => bvals.getD idx 0])

/-- A stateful tractogram: volume dimensions, streamlines (lists of 3D
points), and per-point / per-streamline data parallel to the streamline
list. -/
structure Tractogram (P S : Type) where
  dims : List ℚ
  streamlines : List (List (List ℚ))
  dpp : List P
  dps : List S

/-- Restriction of a tractogram to the streamlines satisfying a
predicate; per-point and per-streamline data are restricted to the same
kept indices (boolean-mask selection by the same mask). -/
def restrictT {P S : Type} (t : Tractogram P S) (keep : List (List ℚ) → Bool) :
    Tractogram P S :=
  ⟨t.dims, t.streamlines.filter keep,
   selectByMask t.dpp (t.streamlines.map keep),
   selectByMask t.dps (t.streamlines.map keep)⟩

/-- A point is inside the volume bounding box when no coordinate is
negative and none exceeds the volume dimension on its axis. -/
def streamlineValid (dims : List ℚ) (sl : List (List ℚ)) : Bool :=
  sl.all fun pt => (pt.zip dims).all fun c => decide (0 ≤ c.1 ∧ c.1 ≤ c.2)

/-- Modelled from the spec: dipy's
`StatefulTractogram.remove_invalid_streamlines` (an external dependency,
not part of this snapshot), per the script docstring: "Removal of
streamlines that are out of the volume bounding box. In voxel space no
negative coordinate and no above volume dimension coordinate are
possible. Any streamline that do not respect these two conditions are
removed." -/
def remove_invalid_streamlines {P S : Type} (t : Tractogram P S) :
    Tractogram P S :=
  restrictT t (streamlineValid t.dims)

/-- `main` of `scripts/scil_remove_invalid_streamlines.py`: remove
out-of-bounds streamlines, then, when `--remove_single_point` is given,
keep only streamlines with more than one point; return the written
tractogram and the logged number of removed streamlines. -/
def scil_remove_invalid_streamlines {P S : Type} (t : Tractogram P S)
    (remove_single_point : Bool) : Tractogram P S × ℕ :=
  let ori_len := t.streamlines.length
  let sft := remove_invalid_streamlines t
  let new_sft :=
    if remove_single_point then restrictT sft (fun sl => decide (1 < sl.length))
    else restrictT sft (fun _ => true)
  (new_sft, ori_len - new_sft.streamlines.length)

/-- `get_opposite_phase_encoding_direction` from
`scripts/scil_validate_bids.py`, on strings modelled as lists of
characters: drop the trailing character of a length-2 string, append a
dash otherwise. -/
def get_opposite_phase_encoding_direction (s : List Char) : List Char :=
  if s.length = 2 then s.dropLast else s ++ ['-']

/-- Specification predicate for the output of `b0_clusters` starting at
a gap: from position `e` on, the clusters are ordered maximal runs of
true values of `Q` below `M`, with `Q` false strictly between and around
them. -/
def ClustersOK (Q : ℕ → Bool) (M : ℕ) : ℕ → List (ℕ × ℕ) → Prop
  | e, [] => ∀ i, e ≤ i → i < M → Q i = false
  | e, c :: rest =>
    e ≤ c.1 ∧ c.1 < c.2 ∧ c.2 ≤ M ∧
    (∀ i, e ≤ i → i < c.1 → Q i = false) ∧
    (∀ i, c.1 ≤ i → i < c.2 → Q i = true) ∧
    (c.2 < M → Q c.2 = false) ∧
    ClustersOK Q M c.2 rest

/-- Specification predicate for the output of `b0_clusters_go` in the
middle of a run that started at `s`: the first emitted cluster starts at
`s`, and the rest is as in `ClustersOK`. -/
def ClustersOKsome (Q : ℕ → Bool) (M s : ℕ) : List (ℕ × ℕ) → Prop
  | [] => False
  | c :: rest =>
    c.1 = s ∧ s < c.2 ∧ c.2 ≤ M ∧
    (∀ i, s ≤ i → i < c.2 → Q i = true) ∧
    (c.2 < M → Q c.2 = false) ∧
    ClustersOK Q M c.2 rest

/-- Chunk-boundary well-formedness for the rescale loop: starting from
position `a`, the boundaries are nondecreasing, bounded by `len`, and the
final position reaches `len`. -/
def BoundsOK (len : ℕ) : ℕ → List ℕ → Prop
  | a, [] => len ≤ a
  | a, b :: rest => a ≤ b ∧ b ≤ len ∧ BoundsOK len b rest

/-! ### Generic list helpers -/

theorem getD_of_lt {α : Type} (l : List α) (n : ℕ) (d : α) (h : n < l.length) :
    l.getD n d = l[n] := by
  simp [List.getD_eq_getElem?_getD, List.getElem?_eq_getElem h]

theorem getD_of_le {α : Type} (l : List α) (n : ℕ) (d : α) (h : l.length ≤ n) :
    l.getD n d = d := by
  simp [List.getD_eq_getElem?_getD, List.getElem?_eq_none h]

theorem map_eq_replicate_of_forall {α : Type} {l : List α} {f : α → Bool} {c : Bool}
    (h : ∀ a ∈ l, f a = c) : l.map f = List.replicate l.length c := by
  induction l with
  | nil => rfl
  | cons a t ih =>
    simp only [List.map_cons, List.length_cons, List.replicate_succ]
    rw [h a (List.mem_cons_self a t), ih fun x hx => h x (List.mem_cons_of_mem a hx)]

theorem selectByMask_map {α β : Type} (l : List α) (F : α → β) (G : α → Bool) :
    selectByMask (l.map F) (l.map G) = (l.filter G).map F := by
  induction l with
  | nil => rfl
  | cons a t ih =>
    simp only [List.map_cons, selectByMask, List.filter_cons]
    by_cases h : G a
    · simp [h, ih]
    · simp only [Bool.not_eq_true] at h
      simp [h, ih]

theorem maskedWrite_false_run {α : Type} (x : List α) (z : List α)
    (ms : List Bool) (src : List α) :
    maskedWrite (x ++ z) (List.replicate x.length false ++ ms) src
      = x ++ maskedWrite z ms src := by
  induction x with
  | nil => rfl
  | cons a t ih => simp [maskedWrite, ih]

theorem maskedWrite_true_run {α : Type} (y : List α) (src1 : List α)
    (z : List α) (ms : List Bool) (src2 : List α) (h : src1.length = y.length) :
    maskedWrite (y ++ z) (List.replicate y.length true ++ ms) (src1 ++ src2)
      = src1 ++ maskedWrite z ms src2 := by
  induction y generalizing src1 with
  | nil =>
    have : src1 = [] := List.length_eq_zero.mp h
    simp [this]
  | cons a t ih =>
    match src1 with
    | [] => simp at h
    | v :: vs =>
      simp only [List.length_cons, Nat.succ_inj'] at h
      simp [maskedWrite, ih vs h]

theorem maskedWrite_all_false {α : Type} (z : List α) (src : List α) :
    maskedWrite z (List.replicate z.length false) src = z := by
  have h := maskedWrite_false_run z [] [] src
  simp only [List.append_nil] at h
  rw [h, show maskedWrite ([] : List α) [] src = [] from rfl, List.append_nil]

theorem maskedWrite_true_run_exact {α : Type} (y : List α) (src : List α)
    (z : List α) (ms : List Bool) (h : src.length = y.length) :
    maskedWrite (y ++ z) (List.replicate y.length true ++ ms) src
      = src ++ maskedWrite z ms [] := by
  have h2 := maskedWrite_true_run y src z ms [] h
  simpa using h2

theorem drop_take_eq_map_range' {α : Type} (l : List α) (d : α) (s m : ℕ)
    (h : s + m ≤ l.length) :
    (l.drop s).take m = (List.range' s m).map fun i => l.getD i d := by
  apply List.ext_getElem
  · simp
    omega
  · intro k h1 h2
    simp only [List.length_take, List.length_drop] at h1
    have hk : k < m := lt_of_lt_of_le h1 (min_le_left _ _)
    have hsk : s + k < l.length := by omega
    rw [List.getElem_take, List.getElem_drop]
    simp only [List.getElem_map, List.getElem_range']
    rw [getD_of_lt _ _ _ (by omega : s + 1 * k < l.length)]
    congr 1
    omega

theorem range'_split (a b c : ℕ) (hab : a ≤ b) (hbc : b ≤ c) :
    List.range' a (c - a) = List.range' a (b - a) ++ List.range' b (c - b) := by
  have h1 : a + (b - a) = b := by omega
  have h2 : (c - b) + (b - a) = c - a := by omega
  rw [← h2, ← List.range'_append_1, h1]

theorem filter_range'_all_false {Q : ℕ → Bool} {s m : ℕ}
    (h : ∀ i, s ≤ i → i < s + m → Q i = false) :
    (List.range' s m).filter Q = [] := by
  rw [List.filter_eq_nil_iff]
  intro a ha
  rw [List.mem_range'_1] at ha
  simp [h a ha.1 ha.2]

theorem filter_range'_all_true {Q : ℕ → Bool} {s m : ℕ}
    (h : ∀ i, s ≤ i → i < s + m → Q i = true) :
    (List.range' s m).filter Q = List.range' s m := by
  rw [List.filter_eq_self]
  intro a ha
  rw [List.mem_range'_1] at ha
  exact h a ha.1 ha.2

theorem maskedWrite_interval {α : Type} (Q : ℕ → Bool) (M s e : ℕ)
    (hse : s ≤ e) (heM : e ≤ M) (X src : List α) (d : α)
    (hX : X.length = ((List.range' 0 s).filter Q).length)
    (hsrc : src.length = ((List.range' s (e - s)).filter Q).length) :
    maskedWrite
      (X ++ List.replicate
        (src.length + ((List.range' e (M - e)).filter Q).length) d)
      (((List.range' 0 M).filter Q).map fun i =>
        decide (i ∈ List.range' s (e - s)))
      src
    = X ++ src ++ List.replicate ((List.range' e (M - e)).filter Q).length d := by
  have hsplit : (List.range' 0 M).filter Q
      = (List.range' 0 s).filter Q ++ (List.range' s (e - s)).filter Q
        ++ (List.range' e (M - e)).filter Q := by
    have h0 : List.range' 0 M = List.range' 0 s ++ List.range' s (e - s)
        ++ List.range' e (M - e) := by
      have ha := range'_split 0 e M (by omega) heM
      have hb := range'_split 0 s e (by omega) hse
      simp only [Nat.sub_zero] at ha hb
      rw [ha, hb]
    rw [h0, List.filter_append, List.filter_append]
  rw [hsplit, List.map_append, List.map_append]
  have hA : ((List.range' 0 s).filter Q).map
      (fun i => decide (i ∈ List.range' s (e - s)))
      = List.replicate ((List.range' 0 s).filter Q).length false := by
    apply map_eq_replicate_of_forall
    intro a ha
    have := (List.mem_filter.mp ha).1
    rw [List.mem_range'_1] at this
    simp only [decide_eq_false_iff_not, List.mem_range'_1]
    omega
  have hB : ((List.range' s (e - s)).filter Q).map
      (fun i => decide (i ∈ List.range' s (e - s)))
      = List.replicate ((List.range' s (e - s)).filter Q).length true := by
    apply map_eq_replicate_of_forall
    intro a ha
    simpa using (List.mem_filter.mp ha).1
  have hC : ((List.range' e (M - e)).filter Q).map
      (fun i => decide (i ∈ List.range' s (e - s)))
      = List.replicate ((List.range' e (M - e)).filter Q).length false := by
    apply map_eq_replicate_of_forall
    intro a ha
    have := (List.mem_filter.mp ha).1
    rw [List.mem_range'_1] at this
    simp only [decide_eq_false_iff_not, List.mem_range'_1]
    omega
  rw [hA, hB, hC, ← hX, ← hsrc, List.replicate_add]
  rw [List.append_assoc (List.replicate X.length false)]
  rw [maskedWrite_false_run]
  rw [show (List.replicate src.length true : List Bool)
        = List.replicate (List.replicate src.length d).length true by simp]
  rw [maskedWrite_true_run_exact (List.replicate src.length d) src _ _ (by simp)]
  rw [show (List.replicate ((List.range' e (M - e)).filter Q).length false
          : List Bool)
        = List.replicate
            (List.replicate ((List.range' e (M - e)).filter Q).length d).length
            false by simp]
  rw [maskedWrite_all_false]
  simp [List.append_assoc]

/-! ### The merged shell index list -/

theorem foldr_max_bound {l : List ℕ} {x : ℕ} (hx : x ∈ l) : x ≤ l.foldr max 0 := by
  induction l with
  | nil => cases hx
  | cons a t ih =>
    rcases List.mem_cons.mp hx with h | h
    · subst h; exact le_max_left _ _
    · exact le_trans (ih h) (le_max_right _ _)

theorem mem_npUnique {l : List ℕ} {i : ℕ} : i ∈ npUnique l ↔ i ∈ l := by
  unfold npUnique
  rw [List.mem_filter]
  constructor
  · intro h
    simpa using h.2
  · intro h
    refine ⟨List.mem_range.mpr ?_, by simpa using h⟩
    exact Nat.lt_succ_of_le (foldr_max_bound h)

theorem npUnique_eq_filter {l : List ℕ} {n : ℕ} (h : ∀ x ∈ l, x < n) :
    npUnique l = (List.range' 0 n).filter fun i => decide (i ∈ l) := by
  unfold npUnique
  rw [List.range_eq_range']
  rcases le_total (l.foldr max 0 + 1) n with hle | hle
  · have hsp := range'_split 0 (l.foldr max 0 + 1) n (by omega) hle
    simp only [Nat.sub_zero] at hsp
    have hnil : (List.range' (l.foldr max 0 + 1) (n - (l.foldr max 0 + 1))).filter
        (fun i => decide (i ∈ l)) = [] := by
      apply filter_range'_all_false
      intro i hi _
      simp only [decide_eq_false_iff_not]
      intro hmem
      exact absurd (foldr_max_bound hmem) (by omega)
    rw [hsp, List.filter_append, hnil, List.append_nil]
  · have hsp := range'_split 0 n (l.foldr max 0 + 1) (by omega) hle
    simp only [Nat.sub_zero] at hsp
    have hnil : (List.range' n (l.foldr max 0 + 1 - n)).filter
        (fun i => decide (i ∈ l)) = [] := by
      apply filter_range'_all_false
      intro i hi _
      simp only [decide_eq_false_iff_not]
      intro hmem
      exact absurd (h i hmem) (by omega)
    rw [hsp, List.filter_append, hnil, List.append_nil]

theorem mem_get_shell_indices {bvals : List ℚ} {shell tol : ℚ} {i : ℕ} :
    i ∈ get_shell_indices bvals shell tol
      ↔ i < bvals.length ∧ shell - tol ≤ bvals.getD i 0 ∧ bvals.getD i 0 ≤ shell + tol := by
  unfold get_shell_indices
  rw [List.mem_filter, List.mem_range]
  simp

theorem mem_shell_indices {bvals : List ℚ} {shells : List ℚ} {tol : ℚ} {i : ℕ} :
    i ∈ shell_indices bvals shells tol
      ↔ ∃ shell ∈ shells, i < bvals.length ∧
          shell - tol ≤ bvals.getD i 0 ∧ bvals.getD i 0 ≤ shell + tol := by
  unfold shell_indices
  rw [mem_npUnique, List.mem_flatten]
  constructor
  · rintro ⟨l', hl', hi⟩
    rcases List.mem_map.mp hl' with ⟨shell, hs, rfl⟩
    exact ⟨shell, hs, mem_get_shell_indices.mp hi⟩
  · rintro ⟨shell, hs, hi⟩
    exact ⟨get_shell_indices bvals shell tol,
      List.mem_map.mpr ⟨shell, hs, rfl⟩, mem_get_shell_indices.mpr hi⟩

theorem shell_indices_lt {bvals : List ℚ} {shells : List ℚ} {tol : ℚ} {i : ℕ}
    (h : i ∈ shell_indices bvals shells tol) : i < bvals.length := by
  rcases mem_shell_indices.mp h with ⟨shell, _, hlt, _⟩
  exact hlt

theorem shell_indices_eq_filter {bvals : List ℚ} {shells : List ℚ} {tol : ℚ} :
    shell_indices bvals shells tol
      = (List.range' 0 bvals.length).filter
          fun i => decide (i ∈ shell_indices bvals shells tol) := by
  have hb : ∀ x ∈ (shells.map fun shell => get_shell_indices bvals shell tol).flatten,
      x < bvals.length := by
    intro x hx
    rcases List.mem_flatten.mp hx with ⟨l', hl', hmem⟩
    rcases List.mem_map.mp hl' with ⟨shell, _, rfl⟩
    exact (mem_get_shell_indices.mp hmem).1
  conv_lhs => rw [shell_indices]
  rw [@npUnique_eq_filter _ bvals.length hb]
  apply List.filter_congr
  intro a _
  rw [decide_eq_decide, shell_indices]
  exact mem_npUnique.symm

theorem shell_indices_sorted (bvals : List ℚ) (shells : List ℚ) (tol : ℚ) :
    (shell_indices bvals shells tol).Pairwise (· < ·) := by
  rw [shell_indices_eq_filter]
  exact List.Pairwise.filter _ (by
    rw [← List.range_eq_range']
    exact List.pairwise_lt_range _)

/-! ### The block-streamed fill loop of extract_dwi_shell -/

theorem shell_loop (vols : List Volume) (ind : List ℕ) (Q : ℕ → Bool)
    (hform : ind = (List.range' 0 vols.length).filter Q)
    (bs : ℕ) (hbs : 0 < bs) (d : Volume) :
    ∀ fuel s, s ≤ vols.length → vols.length - s ≤ fuel →
    (volume_iterator_go vols bs fuel s vols.length).foldl
      (fun sd blk =>
        maskedWrite sd (ind.map fun i => decide (i ∈ blk.1))
          (selectByMask blk.2 (blk.1.map fun i => decide (i ∈ ind))))
      (((List.range' 0 s).filter Q).map (fun i => vols.getD i d) ++
        List.replicate ((List.range' s (vols.length - s)).filter Q).length d)
    = ((List.range' 0 vols.length).filter Q).map fun i => vols.getD i d := by
  intro fuel
  induction fuel with
  | zero =>
    intro s hs hf
    have hsn : s = vols.length := by omega
    subst hsn
    simp [volume_iterator_go]
  | succ fuel ih =>
    intro s hs hf
    by_cases hsn : s < vols.length
    · have hstep : volume_iterator_go vols bs (fuel + 1) s vols.length
          = (List.range' s (min (s + bs) vols.length - s),
             (vols.drop s).take (min (s + bs) vols.length - s)) ::
            volume_iterator_go vols bs fuel (min (s + bs) vols.length)
              vols.length := by
        simp only [volume_iterator_go]
        rw [if_pos ⟨hsn, hbs⟩]
      set e := min (s + bs) vols.length with he
      have hse : s ≤ e := by omega
      have hen : e ≤ vols.length := by omega
      have hslt : s < e := by omega
      rw [hstep, List.foldl_cons]
      have hmask : (List.range' s (e - s)).map (fun i => decide (i ∈ ind))
          = (List.range' s (e - s)).map Q := by
        apply List.map_congr_left
        intro a ha
        rw [List.mem_range'_1] at ha
        have hiff : a ∈ ind ↔ Q a = true := by
          rw [hform, List.mem_filter, List.mem_range'_1]
          constructor
          · exact fun hh => hh.2
          · exact fun hh => ⟨by omega, hh⟩
        cases hq : Q a <;> simp [hiff, hq]
      have hdata : (vols.drop s).take (e - s)
          = (List.range' s (e - s)).map fun i => vols.getD i d := by
        apply drop_take_eq_map_range'
        omega
      have hsplit2 : ((List.range' s (vols.length - s)).filter Q).length
          = ((List.range' s (e - s)).filter Q).length
            + ((List.range' e (vols.length - e)).filter Q).length := by
        rw [range'_split s e vols.length hse hen, List.filter_append,
          List.length_append]
      have hstep2 :
          maskedWrite
            (((List.range' 0 s).filter Q).map (fun i => vols.getD i d) ++
              List.replicate ((List.range' s (vols.length - s)).filter Q).length d)
            (ind.map fun i => decide (i ∈ List.range' s (e - s)))
            (selectByMask ((vols.drop s).take (e - s))
              ((List.range' s (e - s)).map fun i => decide (i ∈ ind)))
          = ((List.range' 0 e).filter Q).map (fun i => vols.getD i d) ++
              List.replicate ((List.range' e (vols.length - e)).filter Q).length d := by
        rw [hdata, hmask, selectByMask_map, hsplit2]
        have hW := maskedWrite_interval Q vols.length s e hse hen
          (((List.range' 0 s).filter Q).map fun i => vols.getD i d)
          (((List.range' s (e - s)).filter Q).map fun i => vols.getD i d) d
          (by rw [List.length_map]) (by rw [List.length_map])
        simp only [List.length_map] at hW
        rw [← hform] at hW
        rw [hW]
        have hAB : (List.range' 0 e).filter Q
            = (List.range' 0 s).filter Q ++ (List.range' s (e - s)).filter Q := by
          have hsp := range'_split 0 s e (by omega) hse
          simp only [Nat.sub_zero] at hsp
          rw [hsp, List.filter_append]
        rw [hAB, List.map_append]
      rw [hstep2]
      have hle2 : vols.length - e ≤ fuel := by omega
      exact ih e hen hle2
    · have hsn2 : s = vols.length := by omega
      subst hsn2
      simp [volume_iterator_go]

theorem extract_dwi_shell_canonical (dwi : DWIImage) (bvals : List ℚ)
    (bvecs : List (List ℚ)) (shells : List ℚ) (tol : ℚ) (bsz : Option ℕ)
    (hlen : bvals.length = dwi.vols.length)
    (hbs : 0 < bsz.getD dwi.vols.length)
    (hne : shell_indices bvals shells tol ≠ []) :
    extract_dwi_shell dwi bvals bvecs shells tol bsz
      = Except.ok (shell_indices bvals shells tol,
          (shell_indices bvals shells tol).map
            (fun i => dwi.vols.getD i (zeroVol dwi.spatial)),
          [(shell_indices bvals shells tol).map fun i => npAsInt (bvals.getD i 0)],
          (shell_indices bvals shells tol).map fun i => bvecs.getD i []) := by
  have hform : shell_indices bvals shells tol
      = (List.range' 0 dwi.vols.length).filter
          fun i => decide (i ∈ shell_indices bvals shells tol) := by
    rw [← hlen]
    exact shell_indices_eq_filter
  have hloop := shell_loop dwi.vols (shell_indices bvals shells tol)
    (fun i => decide (i ∈ shell_indices bvals shells tol)) hform
    (bsz.getD dwi.vols.length) hbs (zeroVol dwi.spatial)
    (dwi.vols.length - 0) 0 (by omega) (by omega)
  have hinit : List.replicate (shell_indices bvals shells tol).length
      (zeroVol dwi.spatial)
      = ((List.range' 0 0).filter
          fun i => decide (i ∈ shell_indices bvals shells tol)).map
            (fun i => dwi.vols.getD i (zeroVol dwi.spatial)) ++
        List.replicate ((List.range' 0 (dwi.vols.length - 0)).filter
          fun i => decide (i ∈ shell_indices bvals shells tol)).length
          (zeroVol dwi.spatial) := by
    simp only [List.range'_zero, List.filter_nil, List.map_nil, List.nil_append,
      Nat.sub_zero]
    rw [← hform]
  rw [← hinit] at hloop
  simp only [extract_dwi_shell, volume_iterator]
  rw [if_neg (by simp [hne])]
  rw [hloop, ← hform]

/-- C1: For every 4D DWI image, b-values, b-vectors, non-empty matching
shell set and every block_size >= 1, `extract_dwi_shell` returns exactly
the same (indices, shell_data, output_bvals, output_bvecs) as the same
call with block_size = None: streaming the volume in fixed-size blocks
along the last axis never changes the extracted result. -/
theorem C1_block_streaming_irrelevant
    (dwi : DWIImage) (bvals : List ℚ) (bvecs : List (List ℚ))
    (shells : List ℚ) (tol : ℚ) (bs : ℕ) (hbs : 1 ≤ bs)
    (hlen : bvals.length = dwi.vols.length)
    (hne : shell_indices bvals shells tol ≠ []) :
    extract_dwi_shell dwi bvals bvecs shells tol (some bs)
      = extract_dwi_shell dwi bvals bvecs shells tol none := by
  have hn : 0 < dwi.vols.length := by
    rcases List.exists_mem_of_ne_nil _ hne with ⟨i, hi⟩
    have := shell_indices_lt hi
    omega
  rw [extract_dwi_shell_canonical dwi bvals bvecs shells tol (some bs) hlen
      (by simpa using hbs) hne,
    extract_dwi_shell_canonical dwi bvals bvecs shells tol none hlen
      (by simpa using hn) hne]

theorem C1_block_streaming_irrelevant_witness :
    (1 : ℕ) ≤ 1 ∧
    ([(0 : ℚ), 1000, 1000]).length = (DWIImage.mk 1 [[5], [6], [7]]).vols.length ∧
    shell_indices [0, 1000, 1000] [1000] 20 ≠ [] ∧
    extract_dwi_shell ⟨1, [[5], [6], [7]]⟩ [0, 1000, 1000]
        [[1, 0, 0], [0, 1, 0], [0, 0, 1]] [1000] 20 (some 1)
      = extract_dwi_shell ⟨1, [[5], [6], [7]]⟩ [0, 1000, 1000]
          [[1, 0, 0], [0, 1, 0], [0, 0, 1]] [1000] 20 none :=
  ⟨le_refl 1, rfl,
   by norm_num [shell_indices, get_shell_indices, npUnique, List.range_succ]; decide,
   C1_block_streaming_irrelevant ⟨1, [[5], [6], [7]]⟩ [0, 1000, 1000]
     [[1, 0, 0], [0, 1, 0], [0, 0, 1]] [1000] 20 1 (le_refl 1) rfl
     (by norm_num [shell_indices, get_shell_indices, npUnique, List.range_succ]; decide)⟩

/-- C5: when at least one volume matches a requested b-value within
tolerance, the returned indices are strictly increasing and
duplicate-free (the union of the per-shell index sets), `shell_data[k]`
is the input volume at position `indices[k]`, `output_bvals` is `bvals`
at those indices cast to int as a single row, and `output_bvecs` is the
rows of `bvecs` at those indices. -/
theorem C5_result_components
    (dwi : DWIImage) (bvals : List ℚ) (bvecs : List (List ℚ))
    (shells : List ℚ) (tol : ℚ) (bsz : Option ℕ)
    (hlen : bvals.length = dwi.vols.length)
    (hbs : 0 < bsz.getD dwi.vols.length)
    (ind : List ℕ) (sd : List Volume) (obvals : List (List ℤ))
    (obvecs : List (List ℚ))
    (hok : extract_dwi_shell dwi bvals bvecs shells tol bsz
      = Except.ok (ind, sd, obvals, obvecs)) :
    ind.Pairwise (· < ·) ∧
    (∀ i, i ∈ ind ↔ ∃ shell ∈ shells, i < bvals.length ∧
        shell - tol ≤ bvals.getD i 0 ∧ bvals.getD i 0 ≤ shell + tol) ∧
    (∀ k, k < ind.length →
        sd.getD k [] = dwi.vols.getD (ind.getD k 0) (zeroVol dwi.spatial)) ∧
    obvals = [ind.map fun i => npAsInt (bvals.getD i 0)] ∧
    obvecs = ind.map fun i => bvecs.getD i [] := by
  have hne : shell_indices bvals shells tol ≠ [] := by
    intro hcon
    rw [extract_dwi_shell] at hok
    rw [if_pos (by simp [hcon])] at hok
    cases hok
  rw [extract_dwi_shell_canonical dwi bvals bvecs shells tol bsz hlen hbs hne]
    at hok
  rw [Except.ok.injEq, Prod.mk.injEq, Prod.mk.injEq, Prod.mk.injEq] at hok
  obtain ⟨h1, h2, h3, h4⟩ := hok
  subst h1
  subst h2
  subst h3
  subst h4
  refine ⟨shell_indices_sorted bvals shells tol, fun i => mem_shell_indices,
    ?_, rfl, rfl⟩
  intro k hk
  have hk2 : k < ((shell_indices bvals shells tol).map
      fun i => dwi.vols.getD i (zeroVol dwi.spatial)).length := by
    rw [List.length_map]
    exact hk
  rw [getD_of_lt _ _ _ hk2, getD_of_lt _ _ _ hk, List.getElem_map]

theorem C5_result_components_witness :
    ([(0 : ℚ), 1000, 1000]).length = (DWIImage.mk 1 [[5], [6], [7]]).vols.length ∧
    (0 : ℕ) < (Option.some 2).getD (DWIImage.mk 1 [[5], [6], [7]]).vols.length ∧
    extract_dwi_shell ⟨1, [[5], [6], [7]]⟩ [0, 1000, 1000]
        [[1, 0, 0], [0, 1, 0], [0, 0, 1]] [1000] 20 (some 2)
      = Except.ok ([1, 2], [[6], [7]], [[1000, 1000]], [[0, 1, 0], [0, 0, 1]]) ∧
    (([1, 2] : List ℕ).Pairwise (· < ·) ∧
     (∀ i, i ∈ ([1, 2] : List ℕ) ↔ ∃ shell ∈ ([1000] : List ℚ),
        i < ([(0 : ℚ), 1000, 1000]).length ∧
        shell - 20 ≤ ([(0 : ℚ), 1000, 1000]).getD i 0 ∧
        ([(0 : ℚ), 1000, 1000]).getD i 0 ≤ shell + 20) ∧
     (∀ k, k < ([1, 2] : List ℕ).length →
        ([[6], [7]] : List Volume).getD k []
          = (DWIImage.mk 1 [[5], [6], [7]]).vols.getD
              (([1, 2] : List ℕ).getD k 0) (zeroVol 1)) ∧
     ([[1000, 1000]] : List (List ℤ))
        = [([1, 2] : List ℕ).map fun i => npAsInt (([(0 : ℚ), 1000, 1000]).getD i 0)] ∧
     ([[0, 1, 0], [0, 0, 1]] : List (List ℚ))
        = ([1, 2] : List ℕ).map fun i =>
            ([[1, 0, 0], [0, 1, 0], [0, 0, 1]] : List (List ℚ)).getD i []) :=
  ⟨rfl, by decide,
   by norm_num [extract_dwi_shell, shell_indices, get_shell_indices, npUnique,
     List.range_succ, volume_iterator, volume_iterator_go, maskedWrite,
     selectByMask, zeroVol, npAsInt, Rat.floor],
   C5_result_components ⟨1, [[5], [6], [7]]⟩ [0, 1000, 1000]
     [[1, 0, 0], [0, 1, 0], [0, 0, 1]] [1000] 20 (some 2) rfl (by decide)
     [1, 2] [[6], [7]] [[1000, 1000]] [[0, 1, 0], [0, 0, 1]]
     (by norm_num [extract_dwi_shell, shell_indices, get_shell_indices, npUnique,
       List.range_succ, volume_iterator, volume_iterator_go, maskedWrite,
       selectByMask, zeroVol, npAsInt, Rat.floor])⟩

/-- C8: `extract_dwi_shell` raises ValueError if and only if no volume
index matches any of the requested b-values within the tolerance; the
error is decided before the volume data is touched: whether it raises
does not depend on the image data or the block size, and on error no
output is produced. -/
theorem C8_error_iff_no_match
    (dwi : DWIImage) (bvals : List ℚ) (bvecs : List (List ℚ))
    (shells : List ℚ) (tol : ℚ) (bsz : Option ℕ) :
    ((∃ msg, extract_dwi_shell dwi bvals bvecs shells tol bsz
        = Except.error msg)
      ↔ ∀ i, i < bvals.length → ∀ shell ∈ shells,
          ¬(shell - tol ≤ bvals.getD i 0 ∧ bvals.getD i 0 ≤ shell + tol)) ∧
    (∀ (dwi2 : DWIImage) (bsz2 : Option ℕ),
      (∃ msg, extract_dwi_shell dwi bvals bvecs shells tol bsz
          = Except.error msg)
        ↔ ∃ msg, extract_dwi_shell dwi2 bvals bvecs shells tol bsz2
            = Except.error msg) := by
  have key : ∀ (dwi2 : DWIImage) (bsz2 : Option ℕ),
      (∃ msg, extract_dwi_shell dwi2 bvals bvecs shells tol bsz2
        = Except.error msg) ↔ shell_indices bvals shells tol = [] := by
    intro dwi2 bsz2
    by_cases h : shell_indices bvals shells tol = []
    · simp only [h, iff_true]
      refine ⟨"There are no volumes that have the supplied b-values", ?_⟩
      rw [extract_dwi_shell, if_pos (by simp [h])]
    · simp only [h, iff_false, not_exists]
      intro msg
      rw [extract_dwi_shell, if_neg (by simp [h])]
      simp
  have hempty : shell_indices bvals shells tol = []
      ↔ ∀ i, i < bvals.length → ∀ shell ∈ shells,
          ¬(shell - tol ≤ bvals.getD i 0 ∧ bvals.getD i 0 ≤ shell + tol) := by
    rw [List.eq_nil_iff_forall_not_mem]
    constructor
    · intro h i hi shell hs hcontra
      exact h i (mem_shell_indices.mpr ⟨shell, hs, hi, hcontra⟩)
    · intro h x hx
      rcases mem_shell_indices.mp hx with ⟨shell, hs, hlt, h1, h2⟩
      exact h x hlt shell hs ⟨h1, h2⟩
  exact ⟨(key dwi bsz).trans hempty,
    fun dwi2 bsz2 => (key dwi bsz).trans (key dwi2 bsz2).symm⟩

/-! ### rescale_dwi -/

theorem take_add_split {α : Type} :
    ∀ (a : ℕ) (l : List α) (m : ℕ), l.take (a + m) = l.take a ++ (l.drop a).take m := by
  intro a
  induction a with
  | zero => intro l m; simp
  | succ a ih =>
    intro l m
    cases l with
    | nil => simp
    | cons x xs =>
      have : a + 1 + m = (a + m) + 1 := by omega
      rw [this]
      simp only [List.take_succ_cons, List.drop_succ_cons, List.cons_append]
      rw [ih xs m]

theorem drop_append_ge {α : Type} :
    ∀ (P D : List α) (b : ℕ), P.length ≤ b →
      (P ++ D).drop b = D.drop (b - P.length) := by
  intro P
  induction P with
  | nil => intro D b _; simp
  | cons x P ih =>
    intro D b hb
    cases b with
    | zero => simp at hb
    | succ b =>
      simp only [List.cons_append, List.drop_succ_cons, List.length_cons]
      rw [ih D b (by simpa using hb)]
      congr 1
      omega

theorem rescale_loop_pairs (slope in_max bc_max : ℚ) (orig : List (List ℚ)) :
    ∀ (cs : List ℕ) (a : ℕ), a ≤ orig.length → BoundsOK orig.length a cs →
    rescale_loop slope in_max bc_max ((a :: cs).zip cs)
      ((orig.take a).map
        (List.map fun v => _rescale_intensity v slope in_max bc_max) ++
        orig.drop a)
    = orig.map (List.map fun v => _rescale_intensity v slope in_max bc_max) := by
  intro cs
  induction cs with
  | nil =>
    intro a ha hB
    have haeq : a = orig.length := le_antisymm ha hB
    subst haeq
    simp [rescale_loop]
  | cons b rest ih =>
    intro a ha hB
    obtain ⟨hab, hbl, hB2⟩ := hB
    have hPlen : ((orig.take a).map
        (List.map fun v => _rescale_intensity v slope in_max bc_max)).length
        = a := by
      rw [List.length_map, List.length_take]
      omega
    show rescale_loop slope in_max bc_max ((a, b) :: (b :: rest).zip rest) _ = _
    simp only [rescale_loop, List.foldl_cons]
    have hdropa : (((orig.take a).map
        (List.map fun v => _rescale_intensity v slope in_max bc_max)) ++
          orig.drop a).drop a = orig.drop a := List.drop_left' hPlen
    have htakea : (((orig.take a).map
        (List.map fun v => _rescale_intensity v slope in_max bc_max)) ++
          orig.drop a).take a
        = (orig.take a).map
            (List.map fun v => _rescale_intensity v slope in_max bc_max) :=
      List.take_left' hPlen
    have hdropb : (((orig.take a).map
        (List.map fun v => _rescale_intensity v slope in_max bc_max)) ++
          orig.drop a).drop b = orig.drop b := by
      rw [drop_append_ge _ _ b (by omega), hPlen, List.drop_drop]
      congr 1
      omega
    simp only [setSlice, hdropa, htakea, hdropb]
    have hab2 : a + (b - a) = b := by omega
    have hstate : (orig.take a).map
          (List.map fun v => _rescale_intensity v slope in_max bc_max) ++
        ((orig.drop a).take (b - a)).map
          (List.map fun v => _rescale_intensity v slope in_max bc_max) ++
          orig.drop b
        = (orig.take b).map
            (List.map fun v => _rescale_intensity v slope in_max bc_max) ++
          orig.drop b := by
      rw [← List.map_append, ← take_add_split, hab2]
    rw [hstate]
    exact ih b hbl hB2

theorem boundsOK_arange (n : ℕ) :
    ∀ (k : ℕ) (a : ℕ), a ≤ n → a + 100000 * k < n →
      BoundsOK n a (List.range' (a + 100000) k 100000 ++ [n]) := by
  intro k
  induction k with
  | zero =>
    intro a ha _
    exact ⟨ha, le_refl n, le_refl n⟩
  | succ k ih =>
    intro a ha hk
    rw [List.range'_succ]
    refine ⟨by omega, by omega, ?_⟩
    have : a + 100000 + 100000 = a + 100000 + 100000 := rfl
    have h2 := ih (a + 100000) (by omega) (by omega)
    have harr : a + 100000 + 100000 = (a + 100000) + 100000 := by omega
    rw [show List.range' (a + 100000 + 100000) k 100000
          = List.range' ((a + 100000) + 100000) k 100000 by rw [harr]]
    exact h2

theorem rescale_chunks_structure (n : ℕ) :
    ∃ cs, rescale_chunks n = 0 :: cs ∧ BoundsOK n 0 cs := by
  unfold rescale_chunks
  cases hc : (n + 99999) / 100000 with
  | zero =>
    have hn : n = 0 := by omega
    subst hn
    exact ⟨[], by simp, by exact le_refl 0⟩
  | succ k =>
    rw [List.range'_succ]
    refine ⟨List.range' (0 + 100000) k 100000 ++ [n], by simp, ?_⟩
    apply boundsOK_arange n k 0 (by omega) (by omega)

theorem foldr_min_le_init {α : Type} [LinearOrder α] (l : List α) (d : α) :
    l.foldr min d ≤ d := by
  induction l with
  | nil => exact le_refl d
  | cons a t ih => exact le_trans (min_le_right _ _) ih

theorem foldr_min_le_mem {α : Type} [LinearOrder α] {l : List α} {d : α}
    {x : α} (hx : x ∈ l) : l.foldr min d ≤ x := by
  induction l with
  | nil => cases hx
  | cons a t ih =>
    rcases List.mem_cons.mp hx with h | h
    · subst h; exact min_le_left _ _
    · exact le_trans (min_le_right _ _) (ih h)

theorem le_foldr_max_init {α : Type} [LinearOrder α] (l : List α) (d : α) :
    d ≤ l.foldr max d := by
  induction l with
  | nil => exact le_refl d
  | cons a t ih => exact le_trans ih (le_max_right _ _)

theorem le_foldr_max_mem {α : Type} [LinearOrder α] {l : List α} {d : α}
    {x : α} (hx : x ∈ l) : x ≤ l.foldr max d := by
  induction l with
  | nil => cases hx
  | cons a t ih =>
    rcases List.mem_cons.mp hx with h | h
    · subst h; exact le_max_left _ _
    · exact le_trans (ih h) (le_max_right _ _)

theorem amin2_le_amax2 (d : List (List ℚ)) : amin2 d ≤ amax2 d :=
  le_trans (foldr_min_le_init _ _) (le_foldr_max_init _ _)

theorem foldr_max_map_monotone {F : ℚ → ℚ} (hF : Monotone F) (l : List ℚ)
    (d : ℚ) : (l.map F).foldr max (F d) = F (l.foldr max d) := by
  induction l with
  | nil => rfl
  | cons a t ih =>
    simp only [List.map_cons, List.foldr_cons]
    rw [ih, hF.map_max]

theorem foldr_min_map_monotone {F : ℚ → ℚ} (hF : Monotone F) (l : List ℚ)
    (d : ℚ) : (l.map F).foldr min (F d) = F (l.foldr min d) := by
  induction l with
  | nil => rfl
  | cons a t ih =>
    simp only [List.map_cons, List.foldr_cons]
    rw [ih, hF.map_min]

theorem headD_map_ne_nil {F : ℚ → ℚ} {l : List ℚ} (h : l ≠ []) (d1 d2 : ℚ) :
    (l.map F).headD d1 = F (l.headD d2) := by
  cases l with
  | nil => exact absurd rfl h
  | cons a t => rfl

theorem amax2_map_monotone {F : ℚ → ℚ} (hF : Monotone F)
    (d : List (List ℚ)) (hne : d.flatten ≠ []) :
    amax2 (d.map (List.map F)) = F (amax2 d) := by
  unfold amax2
  rw [← List.map_flatten, headD_map_ne_nil hne _ 0,
    foldr_max_map_monotone hF]

theorem amin2_map_monotone {F : ℚ → ℚ} (hF : Monotone F)
    (d : List (List ℚ)) (hne : d.flatten ≠ []) :
    amin2 (d.map (List.map F)) = F (amin2 d) := by
  unfold amin2
  rw [← List.map_flatten, headD_map_ne_nil hne _ 0,
    foldr_min_map_monotone hF]

/-- C4: `rescale_dwi` replaces every element v of `bc_data` by the affine
transform `in_max - slope * (bc_max - v)` with
`slope = (in_max - in_min) / (bc_max - bc_min)` (independent of the
internal chunk partitioning of the first axis); elements equal to
`bc_max` map to `in_max` and elements equal to `bc_min` map to `in_min`,
so the output's value range equals the original data's intensity
range. -/
theorem C4_rescale_dwi_affine (in_data bc_data : List (List ℚ))
    (hlen : in_data.length = bc_data.length)
    (hrange : amin2 bc_data < amax2 bc_data) :
    (rescale_dwi in_data bc_data
      = bc_data.map (List.map fun v =>
          amax2 in_data -
            ((amax2 in_data - amin2 in_data) /
              (amax2 bc_data - amin2 bc_data)) * (amax2 bc_data - v))) ∧
    (_rescale_intensity (amax2 bc_data)
        ((amax2 in_data - amin2 in_data) / (amax2 bc_data - amin2 bc_data))
        (amax2 in_data) (amax2 bc_data) = amax2 in_data) ∧
    (_rescale_intensity (amin2 bc_data)
        ((amax2 in_data - amin2 in_data) / (amax2 bc_data - amin2 bc_data))
        (amax2 in_data) (amax2 bc_data) = amin2 in_data) ∧
    (bc_data.flatten ≠ [] →
      amax2 (rescale_dwi in_data bc_data) = amax2 in_data ∧
      amin2 (rescale_dwi in_data bc_data) = amin2 in_data) := by
  have hD : amax2 bc_data - amin2 bc_data ≠ 0 :=
    sub_ne_zero.mpr (ne_of_gt hrange)
  have hslope : 0 ≤ (amax2 in_data - amin2 in_data) /
      (amax2 bc_data - amin2 bc_data) :=
    div_nonneg (by linarith [amin2_le_amax2 in_data]) (by linarith)
  have hmono : Monotone (fun v : ℚ =>
      _rescale_intensity v
        ((amax2 in_data - amin2 in_data) / (amax2 bc_data - amin2 bc_data))
        (amax2 in_data) (amax2 bc_data)) := by
    intro a b hab
    simp only [_rescale_intensity]
    have := mul_le_mul_of_nonneg_left
      (by linarith : amax2 bc_data - b ≤ amax2 bc_data - a) hslope
    linarith
  have hmain : rescale_dwi in_data bc_data
      = bc_data.map (List.map fun v =>
          _rescale_intensity v
            ((amax2 in_data - amin2 in_data) /
              (amax2 bc_data - amin2 bc_data))
            (amax2 in_data) (amax2 bc_data)) := by
    simp only [rescale_dwi]
    rw [hlen]
    rcases rescale_chunks_structure bc_data.length with ⟨cs, hcs, hB⟩
    rw [hcs]
    show rescale_loop _ _ _ ((0 :: cs).zip cs) bc_data = _
    have hinit : bc_data
        = (bc_data.take 0).map
            (List.map fun v =>
              _rescale_intensity v
                ((amax2 in_data - amin2 in_data) /
                  (amax2 bc_data - amin2 bc_data))
                (amax2 in_data) (amax2 bc_data)) ++ bc_data.drop 0 := by
      simp
    conv_lhs => rw [hinit]
    exact rescale_loop_pairs _ _ _ bc_data cs 0 (by omega) hB
  have hFmax : _rescale_intensity (amax2 bc_data)
      ((amax2 in_data - amin2 in_data) / (amax2 bc_data - amin2 bc_data))
      (amax2 in_data) (amax2 bc_data) = amax2 in_data := by
    simp [_rescale_intensity]
  have hFmin : _rescale_intensity (amin2 bc_data)
      ((amax2 in_data - amin2 in_data) / (amax2 bc_data - amin2 bc_data))
      (amax2 in_data) (amax2 bc_data) = amin2 in_data := by
    unfold _rescale_intensity
    rw [div_mul_cancel₀ _ hD]
    ring
  refine ⟨hmain, hFmax, hFmin, fun hne => ?_⟩
  rw [hmain]
  constructor
  · rw [amax2_map_monotone hmono bc_data hne]
    exact hFmax
  · rw [amin2_map_monotone hmono bc_data hne]
    exact hFmin

theorem C4_rescale_dwi_affine_witness :
    ([[(0 : ℚ), 4]] : List (List ℚ)).length
        = ([[(1 : ℚ), 3]] : List (List ℚ)).length ∧
    amin2 [[(1 : ℚ), 3]] < amax2 [[(1 : ℚ), 3]] ∧
    ((rescale_dwi [[(0 : ℚ), 4]] [[(1 : ℚ), 3]]
      = ([[(1 : ℚ), 3]] : List (List ℚ)).map (List.map fun v =>
          amax2 [[(0 : ℚ), 4]] -
            ((amax2 [[(0 : ℚ), 4]] - amin2 [[(0 : ℚ), 4]]) /
              (amax2 [[(1 : ℚ), 3]] - amin2 [[(1 : ℚ), 3]])) *
              (amax2 [[(1 : ℚ), 3]] - v))) ∧
    (_rescale_intensity (amax2 [[(1 : ℚ), 3]])
        ((amax2 [[(0 : ℚ), 4]] - amin2 [[(0 : ℚ), 4]]) /
          (amax2 [[(1 : ℚ), 3]] - amin2 [[(1 : ℚ), 3]]))
        (amax2 [[(0 : ℚ), 4]]) (amax2 [[(1 : ℚ), 3]]) = amax2 [[(0 : ℚ), 4]]) ∧
    (_rescale_intensity (amin2 [[(1 : ℚ), 3]])
        ((amax2 [[(0 : ℚ), 4]] - amin2 [[(0 : ℚ), 4]]) /
          (amax2 [[(1 : ℚ), 3]] - amin2 [[(1 : ℚ), 3]]))
        (amax2 [[(0 : ℚ), 4]]) (amax2 [[(1 : ℚ), 3]]) = amin2 [[(0 : ℚ), 4]]) ∧
    (([[(1 : ℚ), 3]] : List (List ℚ)).flatten ≠ [] →
      amax2 (rescale_dwi [[(0 : ℚ), 4]] [[(1 : ℚ), 3]]) = amax2 [[(0 : ℚ), 4]] ∧
      amin2 (rescale_dwi [[(0 : ℚ), 4]] [[(1 : ℚ), 3]]) = amin2 [[(0 : ℚ), 4]])) := by
  have hr : amin2 [[(1 : ℚ), 3]] < amax2 [[(1 : ℚ), 3]] := by
    norm_num [amin2, amax2]
  exact ⟨rfl, hr, C4_rescale_dwi_affine [[0, 4]] [[1, 3]] rfl hr⟩

/-! ### Frame facts for rescale_dwi (C9) -/

theorem rescale_st_fold_in_data (slope in_max bc_max : ℚ) :
    ∀ (pairs : List (ℕ × ℕ)) (st0 : RescaleState),
      (pairs.foldl (fun s p =>
        ⟨s.in_data,
         setSlice s.bc_data p.1 p.2
           (((s.bc_data.drop p.1).take (p.2 - p.1)).map
             (List.map fun v => _rescale_intensity v slope in_max bc_max))⟩)
        st0).in_data = st0.in_data := by
  intro pairs
  induction pairs with
  | nil => intro st0; rfl
  | cons p ps ih => intro st0; rw [List.foldl_cons, ih]

theorem rescale_st_fold_bc (slope in_max bc_max : ℚ) :
    ∀ (pairs : List (ℕ × ℕ)) (st0 : RescaleState),
      (pairs.foldl (fun s p =>
        ⟨s.in_data,
         setSlice s.bc_data p.1 p.2
           (((s.bc_data.drop p.1).take (p.2 - p.1)).map
             (List.map fun v => _rescale_intensity v slope in_max bc_max))⟩)
        st0 : RescaleState).bc_data
      = rescale_loop slope in_max bc_max pairs st0.bc_data := by
  intro pairs
  induction pairs with
  | nil => intro st0; rfl
  | cons p ps ih =>
    intro st0
    rw [List.foldl_cons, ih]
    rfl

/-- C9: the state-passing `rescale_dwi` writes only the `bc_data` array
(chunk by chunk), returns exactly that array, and leaves `in_data`
untouched; the rewritten content is the one computed by the pure
`rescale_dwi`. -/
theorem C9_rescale_dwi_frame (st : RescaleState) :
    (rescale_dwi_st st).1.in_data = st.in_data ∧
    (rescale_dwi_st st).2 = (rescale_dwi_st st).1.bc_data ∧
    (rescale_dwi_st st).1.bc_data = rescale_dwi st.in_data st.bc_data := by
  refine ⟨?_, rfl, ?_⟩
  · simp only [rescale_dwi_st]
    exact rescale_st_fold_in_data _ _ _ _ st
  · simp only [rescale_dwi_st, rescale_dwi]
    exact rescale_st_fold_bc _ _ _ _ st

/-! ### Gradient table writers (C6) -/

theorem map_range_getD {α β : Type} (l : List α) (g : α → β) (d : α) :
    (List.range l.length).map (fun i => g (l.getD i d)) = l.map g := by
  apply List.ext_getElem
  · simp
  · intro k h1 h2
    simp only [List.getElem_map, List.getElem_range]
    rw [getD_of_lt _ _ _ (by simpa using h2)]

/-- C6: the MRtrix writer emits one line per b-vector column holding the
three components and the b-value `bvals[shell_idx[idx]]`; the FSL writer
emits the `bvecs` array and a single row holding the identical b-value
sequence in the same order. -/
theorem C6_gradient_writers_agree (bvecs : List (List ℚ)) (shell_idx : List ℕ)
    (bvals : List ℚ) (hN : shell_idx.length = (bvecs.headD []).length) :
    (save_gradient_sampling_mrtrix bvecs shell_idx bvals).length
        = (bvecs.headD []).length ∧
    (∀ idx, idx < (bvecs.headD []).length →
      (save_gradient_sampling_mrtrix bvecs shell_idx bvals).getD idx (0, 0, 0, 0)
        = ((bvecs.getD 0 []).getD idx 0, (bvecs.getD 1 []).getD idx 0,
           (bvecs.getD 2 []).getD idx 0, bvals.getD (shell_idx.getD idx 0) 0)) ∧
    (save_gradient_sampling_fsl bvecs shell_idx bvals).1 = bvecs ∧
    (save_gradient_sampling_fsl bvecs shell_idx bvals).2
        = [(save_gradient_sampling_mrtrix bvecs shell_idx bvals).map
            (fun r => r.2.2.2)] := by
  refine ⟨by simp [save_gradient_sampling_mrtrix], ?_, rfl, ?_⟩
  · intro idx hidx
    have hlt : idx < (save_gradient_sampling_mrtrix bvecs shell_idx bvals).length := by
      simpa [save_gradient_sampling_mrtrix] using hidx
    rw [getD_of_lt _ _ _ hlt]
    simp only [save_gradient_sampling_mrtrix, List.getElem_map, List.getElem_range]
  · show (_, [shell_idx.map fun idx => bvals.getD idx 0]).2 = _
    simp only [save_gradient_sampling_mrtrix, List.map_map]
    rw [← hN]
    rw [show ((fun r : ℚ × ℚ × ℚ × ℚ => r.2.2.2) ∘ fun idx =>
        ((bvecs.getD 0 []).getD idx 0, (bvecs.getD 1 []).getD idx 0,
         (bvecs.getD 2 []).getD idx 0, bvals.getD (shell_idx.getD idx 0) 0))
      = fun idx => bvals.getD (shell_idx.getD idx 0) 0 from rfl]
    rw [map_range_getD shell_idx (fun j => bvals.getD j 0) 0]

theorem C6_gradient_writers_agree_witness :
    ([0, 1] : List ℕ).length
        = (([[1, 2], [3, 4], [5, 6]] : List (List ℚ)).headD []).length ∧
    ((save_gradient_sampling_mrtrix [[1, 2], [3, 4], [5, 6]] [0, 1] [7, 9]).length
        = (([[1, 2], [3, 4], [5, 6]] : List (List ℚ)).headD []).length ∧
    (∀ idx, idx < (([[1, 2], [3, 4], [5, 6]] : List (List ℚ)).headD []).length →
      (save_gradient_sampling_mrtrix [[1, 2], [3, 4], [5, 6]] [0, 1] [7, 9]).getD
          idx (0, 0, 0, 0)
        = ((([[1, 2], [3, 4], [5, 6]] : List (List ℚ)).getD 0 []).getD idx 0,
           (([[1, 2], [3, 4], [5, 6]] : List (List ℚ)).getD 1 []).getD idx 0,
           (([[1, 2], [3, 4], [5, 6]] : List (List ℚ)).getD 2 []).getD idx 0,
           ([7, 9] : List ℚ).getD (([0, 1] : List ℕ).getD idx 0) 0)) ∧
    (save_gradient_sampling_fsl [[1, 2], [3, 4], [5, 6]] [0, 1] [7, 9]).1
        = [[1, 2], [3, 4], [5, 6]] ∧
    (save_gradient_sampling_fsl [[1, 2], [3, 4], [5, 6]] [0, 1] [7, 9]).2
        = [(save_gradient_sampling_mrtrix [[1, 2], [3, 4], [5, 6]] [0, 1] [7, 9]).map
            (fun r => r.2.2.2)]) :=
  ⟨rfl, C6_gradient_writers_agree [[1, 2], [3, 4], [5, 6]] [0, 1] [7, 9] rfl⟩

/-! ### Streamline filtering (C7) -/

theorem selectByMask_all_true {α : Type} :
    ∀ (m : List α), selectByMask m (List.replicate m.length true) = m := by
  intro m
  induction m with
  | nil => rfl
  | cons a t ih => simp [selectByMask, ih]

theorem selectByMask_comp {α β : Type} (p q : α → Bool) :
    ∀ (l : List α) (m : List β), l.length = m.length →
      selectByMask (selectByMask m (l.map p)) ((l.filter p).map q)
        = selectByMask m (l.map fun x => p x && q x) := by
  intro l
  induction l with
  | nil => intro m _; cases m <;> rfl
  | cons a t ih =>
    intro m hm
    cases m with
    | nil => simp at hm
    | cons b mt =>
      simp only [List.length_cons, Nat.succ_inj'] at hm
      by_cases hp : p a
      · simp only [List.map_cons, List.filter_cons, hp, if_pos, hp,
          Bool.true_and]
        by_cases hq : q a
        · simp [selectByMask, hp, hq, ih mt hm]
        · simp only [Bool.not_eq_true] at hq
          simp [selectByMask, hp, hq, ih mt hm]
      · simp only [Bool.not_eq_true] at hp
        simp [selectByMask, List.filter_cons, hp, ih mt hm]

theorem restrictT_restrictT {P S : Type} (t : Tractogram P S)
    (p q : List (List ℚ) → Bool)
    (hpp : t.dpp.length = t.streamlines.length)
    (hps : t.dps.length = t.streamlines.length) :
    restrictT (restrictT t p) q = restrictT t fun sl => p sl && q sl := by
  simp only [restrictT]
  congr 1
  · rw [List.filter_filter]
    apply List.filter_congr
    intro a _
    rw [Bool.and_comm]
  · rw [selectByMask_comp p q t.streamlines t.dpp hpp.symm]
  · rw [selectByMask_comp p q t.streamlines t.dps hps.symm]

/-- C7: the script writes exactly the input streamlines that survive
out-of-bounds removal and, if and only if `--remove_single_point` is
given, also excludes streamlines with one point or fewer; kept
streamlines appear in their original relative order with per-point and
per-streamline data restricted to the same kept indices, and the logged
removed count is the original count minus the output count. -/
theorem C7_remove_invalid_streamlines (P S : Type) (t : Tractogram P S)
    (rsp : Bool)
    (hpp : t.dpp.length = t.streamlines.length)
    (hps : t.dps.length = t.streamlines.length) :
    scil_remove_invalid_streamlines t rsp
      = (restrictT t (fun sl => streamlineValid t.dims sl &&
            (!rsp || decide (1 < sl.length))),
         t.streamlines.length -
           (restrictT t (fun sl => streamlineValid t.dims sl &&
              (!rsp || decide (1 < sl.length)))).streamlines.length) := by
  have hmain : (if rsp then
        restrictT (remove_invalid_streamlines t) (fun sl => decide (1 < sl.length))
      else restrictT (remove_invalid_streamlines t) (fun _ => true))
      = restrictT t (fun sl => streamlineValid t.dims sl &&
          (!rsp || decide (1 < sl.length))) := by
    cases rsp
    · simp only [Bool.false_eq_true, if_false, Bool.not_false, Bool.true_or]
      rw [remove_invalid_streamlines,
        restrictT_restrictT t (streamlineValid t.dims) (fun _ => true) hpp hps]
    · simp only [if_true, Bool.not_true, Bool.false_or]
      rw [remove_invalid_streamlines,
        restrictT_restrictT t (streamlineValid t.dims)
          (fun sl => decide (1 < sl.length)) hpp hps]
  show (if rsp then _ else _, t.streamlines.length - _) = _
  rw [Prod.mk.injEq]
  constructor
  · exact hmain
  · rw [hmain]

theorem C7_remove_invalid_streamlines_witness :
    (([10, 20, 30] : List ℕ)).length
        = ([[[1, 1], [2, 2]], [[-3, 0]], [[5, 5]]] : List (List (List ℚ))).length ∧
    (([7, 8, 9] : List ℕ)).length
        = ([[[1, 1], [2, 2]], [[-3, 0]], [[5, 5]]] : List (List (List ℚ))).length ∧
    scil_remove_invalid_streamlines
        (Tractogram.mk [9, 9]
          [[[1, 1], [2, 2]], [[-3, 0]], [[5, 5]]] [10, 20, 30] [7, 8, 9]) true
      = (restrictT (Tractogram.mk [9, 9]
            [[[1, 1], [2, 2]], [[-3, 0]], [[5, 5]]] [10, 20, 30] [7, 8, 9])
            (fun sl => streamlineValid [9, 9] sl &&
              (!true || decide (1 < sl.length))),
         ([[[1, 1], [2, 2]], [[-3, 0]], [[5, 5]]] : List (List (List ℚ))).length -
           (restrictT (Tractogram.mk [9, 9]
              [[[1, 1], [2, 2]], [[-3, 0]], [[5, 5]]] [10, 20, 30] [7, 8, 9])
              (fun sl => streamlineValid [9, 9] sl &&
                (!true || decide (1 < sl.length)))).streamlines.length) :=
  ⟨rfl, rfl,
   C7_remove_invalid_streamlines ℕ ℕ
     (Tractogram.mk [9, 9] [[[1, 1], [2, 2]], [[-3, 0]], [[5, 5]]] [10, 20, 30] [7, 8, 9])
     true rfl rfl⟩

/-! ### Phase-encoding direction (C10) -/

theorem C10_involution_counterexample :
    (['a', 'b'] : List Char).length = 2 ∧
    get_opposite_phase_encoding_direction
        (get_opposite_phase_encoding_direction ['a', 'b']) ≠ ['a', 'b'] := by
  constructor
  · rfl
  · intro h
    simp only [get_opposite_phase_encoding_direction] at h
    simp at h

/-- C10 (amended): `get_opposite_phase_encoding_direction` appends a dash
to a length-1 string and strips the trailing character of a length-2
string; applying it twice is the identity on length-1 strings and on
length-2 strings whose second character is a dash (the well-formed
phase-encoding directions), but not on arbitrary length-2 strings. -/
theorem C10_opposite_pe_direction (s : List Char) :
    (s.length = 1 → get_opposite_phase_encoding_direction s = s ++ ['-'] ∧
      get_opposite_phase_encoding_direction
        (get_opposite_phase_encoding_direction s) = s) ∧
    (s.length = 2 → get_opposite_phase_encoding_direction s = s.dropLast ∧
      (s.getLast? = some '-' →
        get_opposite_phase_encoding_direction
          (get_opposite_phase_encoding_direction s) = s)) := by
  constructor
  · intro h1
    rcases List.length_eq_one.mp h1 with ⟨a, rfl⟩
    constructor
    · simp [get_opposite_phase_encoding_direction]
    · simp [get_opposite_phase_encoding_direction]
  · intro h2
    rcases List.length_eq_two.mp h2 with ⟨a, b, rfl⟩
    constructor
    · simp [get_opposite_phase_encoding_direction]
    · intro hlast
      have hb : b = '-' := by
        simpa using hlast
      subst hb
      simp [get_opposite_phase_encoding_direction]

theorem C10_opposite_pe_direction_witness :
    ((['i'] : List Char).length = 1 ∧
      get_opposite_phase_encoding_direction ['i'] = ['i'] ++ ['-'] ∧
      get_opposite_phase_encoding_direction
        (get_opposite_phase_encoding_direction ['i']) = ['i']) ∧
    ((['j', '-'] : List Char).length = 2 ∧
      get_opposite_phase_encoding_direction ['j', '-']
        = (['j', '-'] : List Char).dropLast ∧
      get_opposite_phase_encoding_direction
        (get_opposite_phase_encoding_direction ['j', '-']) = ['j', '-']) :=
  ⟨⟨rfl, (C10_opposite_pe_direction ['i']).1 rfl⟩,
   ⟨rfl, ((C10_opposite_pe_direction ['j', '-']).2 rfl).1,
    ((C10_opposite_pe_direction ['j', '-']).2 rfl).2 rfl⟩⟩

/-! ### b0 cluster detection -/

theorem ClustersOK_weaken {Q : ℕ → Bool} {M e : ℕ} {cls : List (ℕ × ℕ)}
    (hQ : Q e = false) (h : ClustersOK Q M (e + 1) cls) :
    ClustersOK Q M e cls := by
  cases cls with
  | nil =>
    intro i hi1 hi2
    rcases Nat.eq_or_lt_of_le hi1 with heq | hlt
    · rw [← heq]; exact hQ
    · exact h i hlt hi2
  | cons c rest =>
    obtain ⟨h1, h2, h3, h4, h5, h6, h7⟩ := h
    refine ⟨by omega, h2, h3, ?_, h5, h6, h7⟩
    intro i hi1 hi2
    rcases Nat.eq_or_lt_of_le hi1 with heq | hlt
    · rw [← heq]; exact hQ
    · exact h4 i hlt hi2

theorem ClustersOKsome_to_OK {Q : ℕ → Bool} {M s : ℕ} {cls : List (ℕ × ℕ)}
    (h : ClustersOKsome Q M s cls) : ClustersOK Q M s cls := by
  cases cls with
  | nil => cases h
  | cons c rest =>
    obtain ⟨h1, h2, h3, h4, h5, h6⟩ := h
    refine ⟨by omega, by omega, h3, ?_, ?_, h5, h6⟩
    · intro i hi1 hi2
      omega
    · intro i hi1 hi2
      exact h4 i (by omega) hi2

theorem clGo_invariant (m0 : List Bool) :
    ∀ d k, k + d = m0.length →
      ClustersOK (fun i => m0.getD i false) m0.length k
        (b0_clusters_go (m0.drop k) k none) ∧
      (∀ s, s < k → (∀ i, s ≤ i → i < k → m0.getD i false = true) →
        ClustersOKsome (fun i => m0.getD i false) m0.length s
          (b0_clusters_go (m0.drop k) k (some s))) := by
  intro d
  induction d with
  | zero =>
    intro k hk
    have hk2 : k = m0.length := by omega
    have hdrop : m0.drop k = [] := by rw [hk2]; exact List.drop_length m0
    rw [hdrop]
    constructor
    · intro i h1 h2
      omega
    · intro s hs hrun
      exact ⟨rfl, by omega, by omega, fun i hi1 hi2 => hrun i hi1 (by omega),
        fun hcon => absurd hcon (by omega), fun i h1 h2 => by omega⟩
  | succ d ih =>
    intro k hk
    have hklt : k < m0.length := by omega
    have hdrop : m0.drop k = m0[k] :: m0.drop (k + 1) :=
      List.drop_eq_getElem_cons hklt
    have hQk : m0.getD k false = m0[k] := getD_of_lt _ _ _ hklt
    obtain ⟨ihA, ihB⟩ := ih (k + 1) (by omega)
    rw [hdrop]
    constructor
    · cases hb : m0[k] with
      | false =>
        show ClustersOK _ _ k (b0_clusters_go (m0.drop (k + 1)) (k + 1) none)
        exact ClustersOK_weaken (by rw [hQk, hb]) ihA
      | true =>
        show ClustersOK _ _ k (b0_clusters_go (m0.drop (k + 1)) (k + 1) (some k))
        apply ClustersOKsome_to_OK
        apply ihB k (by omega)
        intro i hi1 hi2
        have hik : i = k := by omega
        rw [hik, hQk, hb]
    · intro s hs hrun
      cases hb : m0[k] with
      | true =>
        show ClustersOKsome _ _ s (b0_clusters_go (m0.drop (k + 1)) (k + 1) (some s))
        apply ihB s (by omega)
        intro i hi1 hi2
        rcases (by omega : i < k ∨ i = k) with h | h
        · exact hrun i hi1 h
        · rw [h, hQk, hb]
      | false =>
        show ClustersOKsome _ _ s
          ((s, k) :: b0_clusters_go (m0.drop (k + 1)) (k + 1) none)
        refine ⟨rfl, hs, by omega, hrun,
          fun _ => by show m0.getD k false = false; rw [hQk, hb], ?_⟩
        exact ClustersOK_weaken (by rw [hQk, hb]) ihA

theorem b0_clusters_ok (mask : List Bool) :
    ClustersOK (fun i => mask.getD i false) mask.length 0 (b0_clusters mask) := by
  have h := (clGo_invariant mask mask.length 0 (by omega)).1
  rw [List.drop_zero] at h
  exact h

theorem clusters_bounds {Q : ℕ → Bool} {M : ℕ} :
    ∀ {cls : List (ℕ × ℕ)} {e : ℕ}, ClustersOK Q M e cls →
      ∀ c ∈ cls, e ≤ c.1 ∧ c.1 < c.2 ∧ c.2 ≤ M := by
  intro cls
  induction cls with
  | nil => intro e _ c hc; cases hc
  | cons c0 rest ih =>
    intro e h c hc
    obtain ⟨h1, h2, h3, h4, h5, h6, h7⟩ := h
    rcases List.mem_cons.mp hc with rfl | hmem
    · exact ⟨h1, h2, h3⟩
    · have := ih h7 c hmem
      exact ⟨by omega, this.2.1, this.2.2⟩

theorem clusters_join {Q : ℕ → Bool} {M : ℕ} :
    ∀ {cls : List (ℕ × ℕ)} {e : ℕ}, e ≤ M → ClustersOK Q M e cls →
      (List.range' e (M - e)).filter Q
        = (cls.map fun c => List.range' c.1 (c.2 - c.1)).flatten := by
  intro cls
  induction cls with
  | nil =>
    intro e heM h
    simp only [List.map_nil, List.flatten_nil]
    apply filter_range'_all_false
    intro i hi1 hi2
    exact h i hi1 (by omega)
  | cons c rest ih =>
    intro e heM h
    obtain ⟨h1, h2, h3, h4, h5, h6, h7⟩ := h
    have hsp1 := range'_split e c.1 M h1 (by omega)
    have hsp2 := range'_split c.1 c.2 M (by omega) h3
    rw [hsp1, List.filter_append, hsp2, List.filter_append]
    rw [filter_range'_all_false (fun i hi1 hi2 => h4 i hi1 (by omega)),
      filter_range'_all_true (fun i hi1 hi2 => h5 i hi1 (by omega)),
      List.nil_append]
    simp only [List.map_cons, List.flatten_cons]
    rw [ih (by omega) h7]

/-! ### np.min on index lists -/

theorem foldr_min_mem_or_init {l : List ℕ} {d : ℕ} :
    l.foldr min d = d ∨ l.foldr min d ∈ l := by
  induction l with
  | nil => exact Or.inl rfl
  | cons a t ih =>
    simp only [List.foldr_cons]
    rcases le_total a (t.foldr min d) with h | h
    · rw [min_eq_left h]
      exact Or.inr (List.mem_cons_self a t)
    · rw [min_eq_right h]
      rcases ih with h2 | h2
      · exact Or.inl h2
      · exact Or.inr (List.mem_cons_of_mem a h2)

theorem headD_mem {α : Type} {l : List α} (h : l ≠ []) (d : α) :
    l.headD d ∈ l := by
  cases l with
  | nil => exact absurd rfl h
  | cons a t => exact List.mem_cons_self a t

theorem npMin_spec {l : List ℕ} (hne : l ≠ []) :
    npMin l ∈ l ∧ ∀ x ∈ l, npMin l ≤ x := by
  constructor
  · rcases @foldr_min_mem_or_init l (l.headD 0) with h | h
    · rw [npMin, h]; exact headD_mem hne 0
    · exact h
  · intro x hx
    exact foldr_min_le_mem hx

/-! ### Volume sum algebra -/

theorem addVol_assoc (a b c : Volume) :
    addVol (addVol a b) c = addVol a (addVol b c) := by
  induction a generalizing b c with
  | nil => rfl
  | cons x xs ih =>
    cases b with
    | nil => rfl
    | cons y ys =>
      cases c with
      | nil => rfl
      | cons z zs =>
        simp only [addVol, List.zipWith_cons_cons]
        rw [add_assoc]
        exact congrArg (List.cons (x + (y + z))) (ih ys zs)
      
theorem foldl_addVol_shift :
    ∀ (ys : List Volume) (a b : Volume),
      ys.foldl addVol (addVol a b) = addVol a (ys.foldl addVol b) := by
  intro ys
  induction ys with
  | nil => intro a b; rfl
  | cons y t ih =>
    intro a b
    simp only [List.foldl_cons]
    rw [addVol_assoc, ih]

theorem addVol_length (a b : Volume) :
    (addVol a b).length = min a.length b.length := by
  simp [addVol]

theorem addVol_zv_right {a : Volume} {sp : ℕ} (h : a.length = sp) :
    addVol a (zeroVol sp) = a := by
  subst h
  induction a with
  | nil => rfl
  | cons x xs ih =>
    simp only [zeroVol, List.length_cons, List.replicate_succ, addVol,
      List.zipWith_cons_cons, add_zero]
    exact congrArg (List.cons x) ih

theorem addVol_zv_left {a : Volume} {sp : ℕ} (h : a.length = sp) :
    addVol (zeroVol sp) a = a := by
  subst h
  induction a with
  | nil => rfl
  | cons x xs ih =>
    simp only [zeroVol, List.length_cons, List.replicate_succ, addVol,
      List.zipWith_cons_cons, zero_add]
    exact congrArg (List.cons x) ih

theorem sumLastAxis_length {sp : ℕ} :
    ∀ {vs : List Volume}, (∀ v ∈ vs, v.length = sp) →
      (sumLastAxis sp vs).length = sp := by
  have key : ∀ (vs : List Volume) (acc : Volume), acc.length = sp →
      (∀ v ∈ vs, v.length = sp) → (vs.foldl addVol acc).length = sp := by
    intro vs
    induction vs with
    | nil => intro acc ha _; exact ha
    | cons v t ih =>
      intro acc ha hv
      simp only [List.foldl_cons]
      apply ih
      · rw [addVol_length, ha, hv v (List.mem_cons_self v t)]
        exact min_self sp
      · intro x hx
        exact hv x (List.mem_cons_of_mem v hx)
  intro vs hvs
  exact key vs (zeroVol sp) (by simp [zeroVol]) hvs

theorem sumLastAxis_append {sp : ℕ} (X Y : List Volume)
    (hX : ∀ v ∈ X, v.length = sp) :
    sumLastAxis sp (X ++ Y) = addVol (sumLastAxis sp X) (sumLastAxis sp Y) := by
  unfold sumLastAxis
  rw [List.foldl_append]
  have h1 : X.foldl addVol (zeroVol sp)
      = addVol (X.foldl addVol (zeroVol sp)) (zeroVol sp) :=
    (addVol_zv_right (sumLastAxis_length hX)).symm
  conv_lhs => rw [h1]
  rw [foldl_addVol_shift]

theorem filter_prefix_gap {Q : ℕ → Bool} {e e2 len : ℕ} (hee : e ≤ e2)
    (h2 : e2 ≤ len) (hgap : ∀ i, e ≤ i → i < e2 → Q i = false) :
    (List.range' 0 e).filter Q = (List.range' 0 e2).filter Q ∧
    (List.range' e (len - e)).filter Q = (List.range' e2 (len - e2)).filter Q := by
  constructor
  · have hsp := range'_split 0 e e2 (by omega) hee
    simp only [Nat.sub_zero] at hsp
    rw [hsp, List.filter_append,
      filter_range'_all_false (fun i hi1 hi2 => hgap i hi1 (by omega)),
      List.append_nil]
  · have hsp := range'_split e e2 len hee h2
    rw [hsp, List.filter_append,
      filter_range'_all_false (fun i hi1 hi2 => hgap i hi1 (by omega)),
      List.nil_append]

theorem slice_split (vols : List Volume) (s e t : ℕ) (h1 : s ≤ e) (h2 : e ≤ t) :
    (vols.drop s).take (t - s)
      = (vols.drop s).take (e - s) ++ (vols.drop e).take (t - e) := by
  rw [show t - s = (e - s) + (t - e) by omega, take_add_split]
  rw [List.drop_drop, show s + (e - s) = e by omega]

theorem slice_wf {vols : List Volume} {sp : ℕ}
    (hvols : ∀ v ∈ vols, v.length = sp) (s m : ℕ) :
    ∀ v ∈ (vols.drop s).take m, v.length = sp := by
  intro v hv
  exact hvols v (List.mem_of_mem_drop (List.mem_of_mem_take hv))

theorem mean_inner_loop (vols : List Volume) (sp : ℕ)
    (hvols : ∀ v ∈ vols, v.length = sp) (bs : ℕ) (hbs : 0 < bs) (t : ℕ) :
    ∀ fuel s' acc, s' ≤ t → t - s' ≤ fuel → acc.length = sp →
      (volume_iterator_go vols bs fuel s' t).foldl
        (fun acc blk => addVol acc (sumLastAxis sp blk.2)) acc
      = addVol acc (sumLastAxis sp ((vols.drop s').take (t - s'))) := by
  intro fuel
  induction fuel with
  | zero =>
    intro s' acc hs hf hacc
    have hst : s' = t := by omega
    subst hst
    simp only [volume_iterator_go, List.foldl_nil, Nat.sub_self, List.take_zero]
    rw [show sumLastAxis sp [] = zeroVol sp from rfl, addVol_zv_right hacc]
  | succ fuel ih =>
    intro s' acc hs hf hacc
    by_cases hlt : s' < t
    · have hstep : volume_iterator_go vols bs (fuel + 1) s' t
          = (List.range' s' (min (s' + bs) t - s'),
             (vols.drop s').take (min (s' + bs) t - s')) ::
            volume_iterator_go vols bs fuel (min (s' + bs) t) t := by
        simp only [volume_iterator_go]
        rw [if_pos ⟨hlt, hbs⟩]
      set e := min (s' + bs) t with he
      have hse : s' ≤ e := by omega
      have het : e ≤ t := by omega
      have hslt : s' < e := by omega
      rw [hstep, List.foldl_cons]
      have hS1len : (sumLastAxis sp ((vols.drop s').take (e - s'))).length = sp :=
        sumLastAxis_length (slice_wf hvols s' (e - s'))
      have hacc1 : (addVol acc
          (sumLastAxis sp ((vols.drop s').take (e - s')))).length = sp := by
        rw [addVol_length, hacc, hS1len, min_self]
      rw [ih e _ het (by omega) hacc1]
      rw [addVol_assoc]
      congr 1
      rw [slice_split vols s' e t hse het,
        sumLastAxis_append _ _ (slice_wf hvols s' (e - s'))]
    · have hst : s' = t := by omega
      have hnil : volume_iterator_go vols bs (fuel + 1) s' t = [] := by
        simp only [volume_iterator_go]
        rw [if_neg (fun hcon => hlt hcon.1)]
      rw [hnil]
      simp only [List.foldl_nil]
      rw [hst]
      simp only [Nat.sub_self, List.take_zero]
      rw [show sumLastAxis sp [] = zeroVol sp from rfl, addVol_zv_right hacc]

theorem all_inner_loop (vols : List Volume) (ind : List ℕ) (Q : ℕ → Bool)
    (hform : ind = (List.range' 0 vols.length).filter Q)
    (bs : ℕ) (hbs : 0 < bs) (d : Volume) (t : ℕ) (htM : t ≤ vols.length) :
    ∀ fuel s', s' ≤ t → t - s' ≤ fuel →
      (∀ i, s' ≤ i → i < t → Q i = true) →
      (volume_iterator_go vols bs fuel s' t).foldl
        (fun ob blk =>
          maskedWrite ob (ind.map fun i => decide (i ∈ blk.1)) blk.2)
        (((List.range' 0 s').filter Q).map (fun i => vols.getD i d) ++
          List.replicate ((List.range' s' (vols.length - s')).filter Q).length d)
      = ((List.range' 0 t).filter Q).map (fun i => vols.getD i d) ++
          List.replicate ((List.range' t (vols.length - t)).filter Q).length d := by
  intro fuel
  induction fuel with
  | zero =>
    intro s' hs hf _
    have hst : s' = t := by omega
    subst hst
    simp [volume_iterator_go]
  | succ fuel ih =>
    intro s' hs hf htrue
    by_cases hlt : s' < t
    · have hstep : volume_iterator_go vols bs (fuel + 1) s' t
          = (List.range' s' (min (s' + bs) t - s'),
             (vols.drop s').take (min (s' + bs) t - s')) ::
            volume_iterator_go vols bs fuel (min (s' + bs) t) t := by
        simp only [volume_iterator_go]
        rw [if_pos ⟨hlt, hbs⟩]
      set e := min (s' + bs) t with he
      have hse : s' ≤ e := by omega
      have het : e ≤ t := by omega
      have heM : e ≤ vols.length := by omega
      rw [hstep, List.foldl_cons]
      have hBtrue : (List.range' s' (e - s')).filter Q = List.range' s' (e - s') := by
        apply filter_range'_all_true
        intro i hi1 hi2
        exact htrue i hi1 (by omega)
      have hdata : (vols.drop s').take (e - s')
          = (List.range' s' (e - s')).map fun i => vols.getD i d := by
        apply drop_take_eq_map_range'
        omega
      have hsplit2 : ((List.range' s' (vols.length - s')).filter Q).length
          = ((List.range' s' (e - s')).filter Q).length
            + ((List.range' e (vols.length - e)).filter Q).length := by
        rw [range'_split s' e vols.length hse heM, List.filter_append,
          List.length_append]
      have hW := maskedWrite_interval Q vols.length s' e hse heM
        (((List.range' 0 s').filter Q).map fun i => vols.getD i d)
        (((List.range' s' (e - s')).filter Q).map fun i => vols.getD i d) d
        (by rw [List.length_map]) (by rw [List.length_map])
      simp only [List.length_map] at hW
      rw [← hform] at hW
      have hsrc : (vols.drop s').take (e - s')
          = ((List.range' s' (e - s')).filter Q).map fun i => vols.getD i d := by
        rw [hBtrue, hdata]
      have hstep2 : maskedWrite
            (((List.range' 0 s').filter Q).map (fun i => vols.getD i d) ++
              List.replicate
                ((List.range' s' (vols.length - s')).filter Q).length d)
            (ind.map fun i => decide (i ∈ List.range' s' (e - s')))
            ((vols.drop s').take (e - s'))
          = ((List.range' 0 e).filter Q).map (fun i => vols.getD i d) ++
              List.replicate
                ((List.range' e (vols.length - e)).filter Q).length d := by
        rw [hsrc, hsplit2, hW]
        have hAB : (List.range' 0 e).filter Q
            = (List.range' 0 s').filter Q ++ (List.range' s' (e - s')).filter Q := by
          have hsp := range'_split 0 s' e (by omega) hse
          simp only [Nat.sub_zero] at hsp
          rw [hsp, List.filter_append]
        rw [hAB, List.map_append]
      rw [hstep2]
      exact ih e het (by omega) (fun i hi1 hi2 => htrue i (by omega) hi2)
    · have hst : s' = t := by omega
      have hnil : volume_iterator_go vols bs (fuel + 1) s' t = [] := by
        simp only [volume_iterator_go]
        rw [if_neg (fun hcon => hlt hcon.1)]
      rw [hnil, hst]
      simp

theorem all_outer_loop (vols : List Volume) (ind : List ℕ) (Q : ℕ → Bool)
    (hform : ind = (List.range' 0 vols.length).filter Q)
    (bs : ℕ) (hbs : 0 < bs) (d : Volume) :
    ∀ (cls : List (ℕ × ℕ)) (e j : ℕ), e ≤ vols.length →
      ClustersOK Q vols.length e cls →
      (List.enumFrom j cls).foldl
        (fun ob p =>
          (volume_iterator_go vols bs (p.2.2 - p.2.1) p.2.1 p.2.2).foldl
            (fun ob2 blk =>
              maskedWrite ob2 (ind.map fun i => decide (i ∈ blk.1)) blk.2) ob)
        (((List.range' 0 e).filter Q).map (fun i => vols.getD i d) ++
          List.replicate ((List.range' e (vols.length - e)).filter Q).length d)
      = ind.map fun i => vols.getD i d := by
  intro cls
  induction cls with
  | nil =>
    intro e j heM h
    obtain ⟨hg1, hg2⟩ := filter_prefix_gap heM (le_refl vols.length)
      (fun i hi1 hi2 => h i hi1 hi2)
    rw [List.enumFrom_nil, List.foldl_nil, hg1, hg2, ← hform]
    simp
  | cons c rest ih =>
    intro e j heM h
    obtain ⟨h1, h2, h3, h4, h5, h6, h7⟩ := h
    have hc1len : c.1 ≤ vols.length := by omega
    obtain ⟨hg1, hg2⟩ := filter_prefix_gap h1 hc1len h4
    rw [List.enumFrom_cons, List.foldl_cons, hg1, hg2]
    have hinner := all_inner_loop vols ind Q hform bs hbs d c.2 h3
      (c.2 - c.1) c.1 (le_of_lt h2) (le_refl _) h5
    dsimp only
    rw [hinner]
    exact ih c.2 (j + 1) h3 h7

/-! ### Per-cluster output ladders -/

theorem set_append_cons {α : Type} (pre : List α) (x v : α) (suf : List α) :
    (pre ++ x :: suf).set pre.length v = pre ++ v :: suf := by
  rw [List.set_append_right _ _ (le_refl pre.length), Nat.sub_self,
    List.set_cons_zero]

theorem getD_set_self {α : Type} (l : List α) (j : ℕ) (v d : α)
    (hj : j < l.length) : (l.set j v).getD j d = v := by
  rw [getD_of_lt _ _ _ (by simpa using hj)]
  exact List.getElem_set_self (by simpa using hj)

theorem enum_set_ladder {α : Type} (g : ℕ × ℕ → α) (z : α) :
    ∀ (cls : List (ℕ × ℕ)) (j : ℕ) (pre : List α), pre.length = j →
      (List.enumFrom j cls).foldl (fun ob p => ob.set p.1 (g p.2))
        (pre ++ List.replicate cls.length z)
      = pre ++ cls.map g := by
  intro cls
  induction cls with
  | nil => intro j pre _; simp
  | cons c rest ih =>
    intro j pre hj
    rw [List.enumFrom_cons, List.foldl_cons]
    simp only [List.length_cons, List.replicate_succ]
    rw [← hj, set_append_cons pre z (g c) (List.replicate rest.length z)]
    have hstep : pre ++ g c :: List.replicate rest.length z
        = (pre ++ [g c]) ++ List.replicate rest.length z := by
      simp
    rw [hstep, ih (pre.length + 1) (pre ++ [g c]) (by simp)]
    simp

theorem inner_fold_set (sp : ℕ) (S : List ℕ × List Volume → Volume) :
    ∀ (blocks : List (List ℕ × List Volume)) (ob : List Volume) (j : ℕ)
      (v : Volume), j < ob.length →
      blocks.foldl (fun ob2 blk =>
        ob2.set j (addVol (ob2.getD j (zeroVol sp)) (S blk))) (ob.set j v)
      = ob.set j (blocks.foldl (fun acc blk => addVol acc (S blk)) v) := by
  intro blocks
  induction blocks with
  | nil => intro ob j v _; rfl
  | cons b bs ih =>
    intro ob j v hj
    simp only [List.foldl_cons]
    rw [getD_set_self ob j v _ hj, List.set_set]
    exact ih ob j (addVol v (S b)) hj

theorem enum_mean_ladder (vols : List Volume) (sp : ℕ)
    (hvols : ∀ v ∈ vols, v.length = sp) (bs : ℕ) (hbs : 0 < bs) :
    ∀ (cls : List (ℕ × ℕ)) (j : ℕ) (pre : List Volume), pre.length = j →
      (∀ c ∈ cls, c.1 ≤ c.2 ∧ c.2 ≤ vols.length) →
      (List.enumFrom j cls).foldl
        (fun ob p =>
          ((volume_iterator_go vols bs (p.2.2 - p.2.1) p.2.1 p.2.2).foldl
            (fun ob2 blk =>
              ob2.set p.1 (addVol (ob2.getD p.1 (zeroVol sp))
                (sumLastAxis sp blk.2))) ob).set p.1
            (scaleVol ((p.2.2 - p.2.1 : ℕ) : ℚ)
              (((volume_iterator_go vols bs (p.2.2 - p.2.1) p.2.1 p.2.2).foldl
                (fun ob2 blk =>
                  ob2.set p.1 (addVol (ob2.getD p.1 (zeroVol sp))
                    (sumLastAxis sp blk.2))) ob).getD p.1 (zeroVol sp))))
        (pre ++ List.replicate cls.length (zeroVol sp))
      = pre ++ cls.map (fun c =>
          scaleVol ((c.2 - c.1 : ℕ) : ℚ)
            (sumLastAxis sp ((vols.drop c.1).take (c.2 - c.1)))) := by
  intro cls
  induction cls with
  | nil => intro j pre _ _; simp
  | cons c rest ih =>
    intro j pre hj hcl
    obtain ⟨hc1, hc2⟩ := hcl c (List.mem_cons_self c rest)
    rw [List.enumFrom_cons, List.foldl_cons]
    simp only [List.length_cons, List.replicate_succ]
    have hjlen : pre.length
        < (pre ++ zeroVol sp :: List.replicate rest.length (zeroVol sp)).length := by
      simp
    have hX : pre ++ zeroVol sp :: List.replicate rest.length (zeroVol sp)
        = (pre ++ zeroVol sp :: List.replicate rest.length (zeroVol sp)).set
            pre.length (zeroVol sp) := by
      rw [set_append_cons]
    rw [← hj]
    have hinner : List.foldl
        (fun ob2 blk => ob2.set pre.length
          (addVol (ob2.getD pre.length (zeroVol sp)) (sumLastAxis sp blk.2)))
        (pre ++ zeroVol sp :: List.replicate rest.length (zeroVol sp))
        (volume_iterator_go vols bs (c.2 - c.1) c.1 c.2)
        = (pre ++ zeroVol sp :: List.replicate rest.length (zeroVol sp)).set
            pre.length (sumLastAxis sp ((vols.drop c.1).take (c.2 - c.1))) := by
      conv_lhs => rw [hX]
      rw [inner_fold_set sp (fun blk => sumLastAxis sp blk.2)
        (volume_iterator_go vols bs (c.2 - c.1) c.1 c.2)
        (pre ++ zeroVol sp :: List.replicate rest.length (zeroVol sp))
        pre.length (zeroVol sp) hjlen]
      rw [mean_inner_loop vols sp hvols bs hbs c.2 (c.2 - c.1) c.1
        (zeroVol sp) hc1 (le_refl _) (by simp [zeroVol])]
      rw [addVol_zv_left (sumLastAxis_length (slice_wf hvols c.1 (c.2 - c.1)))]
    rw [hinner, getD_set_self _ pre.length _ _ hjlen, List.set_set,
      set_append_cons]
    have hstep2 : pre ++ (scaleVol ((c.2 - c.1 : ℕ) : ℚ)
          (sumLastAxis sp ((vols.drop c.1).take (c.2 - c.1))))
            :: List.replicate rest.length (zeroVol sp)
        = (pre ++ [scaleVol ((c.2 - c.1 : ℕ) : ℚ)
            (sumLastAxis sp ((vols.drop c.1).take (c.2 - c.1)))]) ++
          List.replicate rest.length (zeroVol sp) := by
      simp
    rw [hstep2, ih (pre.length + 1) _ (by simp)
      (fun x hx => hcl x (List.mem_cons_of_mem c hx))]
    simp

theorem mean_all_outer (vols : List Volume) (sp : ℕ)
    (hvols : ∀ v ∈ vols, v.length = sp) (bs : ℕ) (hbs : 0 < bs) :
    ∀ (cls : List (ℕ × ℕ)), (∀ c ∈ cls, c.1 ≤ c.2 ∧ c.2 ≤ vols.length) →
      ∀ (acc : Volume), acc.length = sp →
      cls.foldl (fun acc cl =>
        (volume_iterator_go vols bs (cl.2 - cl.1) cl.1 cl.2).foldl
          (fun acc blk => addVol acc (sumLastAxis sp blk.2)) acc) acc
      = addVol acc (sumLastAxis sp
          ((cls.map fun c => (vols.drop c.1).take (c.2 - c.1)).flatten)) := by
  intro cls
  induction cls with
  | nil =>
    intro _ acc hacc
    simp only [List.foldl_nil, List.map_nil, List.flatten_nil]
    rw [show sumLastAxis sp [] = zeroVol sp from rfl, addVol_zv_right hacc]
  | cons c rest ih =>
    intro hcl acc hacc
    obtain ⟨hc1, hc2⟩ := hcl c (List.mem_cons_self c rest)
    rw [List.foldl_cons]
    rw [mean_inner_loop vols sp hvols bs hbs c.2 (c.2 - c.1) c.1 acc hc1
      (le_refl _) hacc]
    have hacc1 : (addVol acc
        (sumLastAxis sp ((vols.drop c.1).take (c.2 - c.1)))).length = sp := by
      rw [addVol_length, hacc,
        sumLastAxis_length (slice_wf hvols c.1 (c.2 - c.1)), min_self]
    rw [ih (fun x hx => hcl x (List.mem_cons_of_mem c hx)) _ hacc1]
    rw [addVol_assoc]
    congr 1
    simp only [List.map_cons, List.flatten_cons]
    rw [sumLastAxis_append _ _ (slice_wf hvols c.1 (c.2 - c.1))]

/-- C2: with `extract_in_cluster = False`, `extract_b0` returns per
strategy: FIRST the single volume at the smallest true index of the
mask; ALL the volumes at every true index in increasing index order;
MEAN one volume equal to the sum of the volumes at true indices divided
by their number. -/
theorem C2_extract_b0_flat (dwi : DWIImage) (b0_mask : List Bool)
    (bsz : Option ℕ)
    (hmask : b0_mask.length = dwi.vols.length)
    (hvols : ∀ v ∈ dwi.vols, v.length = dwi.spatial)
    (hbs : 0 < bsz.getD dwi.vols.length)
    (hne : ∃ i, b0_mask.getD i false = true) :
    (∀ i0, b0_mask.getD i0 false = true →
      (∀ j, j < i0 → b0_mask.getD j false = false) →
      extract_b0 dwi b0_mask false B0ExtractionStrategy.FIRST bsz
        = [dwi.vols.getD i0 (zeroVol dwi.spatial)]) ∧
    (((List.range b0_mask.length).filter
        fun i => b0_mask.getD i false).Pairwise (· < ·) ∧
      extract_b0 dwi b0_mask false B0ExtractionStrategy.ALL bsz
        = ((List.range b0_mask.length).filter fun i => b0_mask.getD i false).map
            fun i => dwi.vols.getD i (zeroVol dwi.spatial)) ∧
    (extract_b0 dwi b0_mask false B0ExtractionStrategy.MEAN bsz
      = [scaleVol
          ((((List.range b0_mask.length).filter
              fun i => b0_mask.getD i false)).length : ℚ)
          (sumLastAxis dwi.spatial
            (((List.range b0_mask.length).filter
                fun i => b0_mask.getD i false).map
              fun i => dwi.vols.getD i (zeroVol dwi.spatial)))]) := by
  have hform : (List.range b0_mask.length).filter
        (fun i => b0_mask.getD i false)
      = (List.range' 0 dwi.vols.length).filter
          fun i => b0_mask.getD i false := by
    rw [List.range_eq_range', hmask]
  have hclok : ClustersOK (fun i => b0_mask.getD i false) dwi.vols.length 0
      (b0_clusters b0_mask) := by
    have h := b0_clusters_ok b0_mask
    rw [hmask] at h
    exact h
  have hbounds : ∀ c ∈ b0_clusters b0_mask, c.1 ≤ c.2 ∧ c.2 ≤ dwi.vols.length := by
    intro c hc
    have h := clusters_bounds hclok c hc
    exact ⟨by omega, h.2.2⟩
  refine ⟨?_, ⟨?_, ?_⟩, ?_⟩
  · -- FIRST
    intro i0 h1 h2
    have hi0lt : i0 < b0_mask.length := by
      by_contra hcon
      rw [getD_of_le _ _ _ (by omega)] at h1
      cases h1
    have hi0mem : i0 ∈ (List.range b0_mask.length).filter
        fun i => b0_mask.getD i false :=
      List.mem_filter.mpr ⟨List.mem_range.mpr hi0lt, h1⟩
    have hnenil : (List.range b0_mask.length).filter
        (fun i => b0_mask.getD i false) ≠ [] :=
      List.ne_nil_of_mem hi0mem
    obtain ⟨hmem, hmin⟩ := npMin_spec hnenil
    have heq : npMin ((List.range b0_mask.length).filter
        fun i => b0_mask.getD i false) = i0 := by
      apply le_antisymm (hmin i0 hi0mem)
      by_contra hcon
      have hlt : npMin ((List.range b0_mask.length).filter
          fun i => b0_mask.getD i false) < i0 := by omega
      have := (List.mem_filter.mp hmem).2
      rw [h2 _ hlt] at this
      cases this
    show [dwi.vols.getD (npMin ((List.range b0_mask.length).filter
        fun i => b0_mask.getD i false)) (zeroVol dwi.spatial)] = _
    rw [heq]
  · -- ALL sorted
    rw [hform]
    exact List.Pairwise.filter _ (by
      rw [← List.range_eq_range']
      exact List.pairwise_lt_range _)
  · -- ALL
    show (List.enumFrom 0 (b0_clusters b0_mask)).foldl
        (fun ob p =>
          (volume_iterator dwi.vols (bsz.getD dwi.vols.length) p.2.1 p.2.2).foldl
            (fun ob2 blk =>
              maskedWrite ob2
                (((List.range b0_mask.length).filter
                    fun i => b0_mask.getD i false).map
                  fun i => decide (i ∈ blk.1)) blk.2) ob)
        (List.replicate
          ((List.range b0_mask.length).filter
            fun i => b0_mask.getD i false).length
          (zeroVol dwi.spatial)) = _
    simp only [volume_iterator]
    have hloop := all_outer_loop dwi.vols
      ((List.range b0_mask.length).filter fun i => b0_mask.getD i false)
      (fun i => b0_mask.getD i false) hform (bsz.getD dwi.vols.length) hbs
      (zeroVol dwi.spatial) (b0_clusters b0_mask) 0 0 (by omega) hclok
    have hinit : List.replicate
        ((List.range b0_mask.length).filter
          fun i => b0_mask.getD i false).length (zeroVol dwi.spatial)
        = ((List.range' 0 0).filter
            (fun i => b0_mask.getD i false)).map
              (fun i => dwi.vols.getD i (zeroVol dwi.spatial)) ++
          List.replicate ((List.range' 0 (dwi.vols.length - 0)).filter
            (fun i => b0_mask.getD i false)).length (zeroVol dwi.spatial) := by
      simp only [List.range'_zero, List.filter_nil, List.map_nil,
        List.nil_append, Nat.sub_zero]
      rw [← hform]
    rw [hinit]
    exact hloop
  · -- MEAN
    show [scaleVol _ ((b0_clusters b0_mask).foldl (fun acc cl =>
        (volume_iterator dwi.vols (bsz.getD dwi.vols.length) cl.1 cl.2).foldl
          (fun acc blk => addVol acc (sumLastAxis dwi.spatial blk.2)) acc)
        (zeroVol dwi.spatial))] = _
    simp only [volume_iterator]
    rw [mean_all_outer dwi.vols dwi.spatial hvols (bsz.getD dwi.vols.length)
      hbs (b0_clusters b0_mask) hbounds (zeroVol dwi.spatial)
      (by simp [zeroVol])]
    have hslices : (b0_clusters b0_mask).map
        (fun c => (dwi.vols.drop c.1).take (c.2 - c.1))
        = (b0_clusters b0_mask).map
            (fun c => (List.range' c.1 (c.2 - c.1)).map
              fun i => dwi.vols.getD i (zeroVol dwi.spatial)) := by
      apply List.map_congr_left
      intro c hc
      apply drop_take_eq_map_range'
      have := hbounds c hc
      omega
    rw [hslices]
    have hmapmap : (b0_clusters b0_mask).map
        (fun c => (List.range' c.1 (c.2 - c.1)).map
          fun i => dwi.vols.getD i (zeroVol dwi.spatial))
        = ((b0_clusters b0_mask).map
            (fun c => List.range' c.1 (c.2 - c.1))).map
              (List.map fun i => dwi.vols.getD i (zeroVol dwi.spatial)) := by
      rw [List.map_map]
      rfl
    rw [hmapmap, ← List.map_flatten]
    have hjoin := clusters_join (by omega : (0 : ℕ) ≤ dwi.vols.length) hclok
    rw [← hjoin]
    simp only [Nat.sub_zero]
    rw [← hform]
    have hwf2 : ∀ v ∈ ((List.range b0_mask.length).filter
        (fun i => b0_mask.getD i false)).map
          (fun i => dwi.vols.getD i (zeroVol dwi.spatial)),
        v.length = dwi.spatial := by
      intro v hv
      rcases List.mem_map.mp hv with ⟨i, _, rfl⟩
      by_cases hi : i < dwi.vols.length
      · rw [getD_of_lt _ _ _ hi]
        exact hvols _ (List.getElem_mem hi)
      · rw [getD_of_le _ _ _ (by omega)]
        simp [zeroVol]
    rw [addVol_zv_left (sumLastAxis_length hwf2)]

/-- C3: with `extract_in_cluster = True` and strategy FIRST or MEAN,
`extract_b0` produces one output volume per maximal contiguous run of
true entries of the mask, in increasing order of the runs: for FIRST the
first volume of the run, for MEAN the sum of the volumes of the run
divided by the run length. -/
theorem C3_extract_b0_clustered (dwi : DWIImage) (b0_mask : List Bool)
    (bsz : Option ℕ)
    (hmask : b0_mask.length = dwi.vols.length)
    (hvols : ∀ v ∈ dwi.vols, v.length = dwi.spatial)
    (hbs : 0 < bsz.getD dwi.vols.length)
    (hne : ∃ i, b0_mask.getD i false = true) :
    ClustersOK (fun i => b0_mask.getD i false) b0_mask.length 0
      (b0_clusters b0_mask) ∧
    extract_b0 dwi b0_mask true B0ExtractionStrategy.FIRST bsz
      = (b0_clusters b0_mask).map
          (fun c => dwi.vols.getD c.1 (zeroVol dwi.spatial)) ∧
    extract_b0 dwi b0_mask true B0ExtractionStrategy.MEAN bsz
      = (b0_clusters b0_mask).map
          (fun c => scaleVol ((c.2 - c.1 : ℕ) : ℚ)
            (sumLastAxis dwi.spatial
              ((List.range' c.1 (c.2 - c.1)).map
                fun i => dwi.vols.getD i (zeroVol dwi.spatial)))) := by
  have hclok : ClustersOK (fun i => b0_mask.getD i false) dwi.vols.length 0
      (b0_clusters b0_mask) := by
    have h := b0_clusters_ok b0_mask
    rw [hmask] at h
    exact h
  have hbounds : ∀ c ∈ b0_clusters b0_mask,
      c.1 ≤ c.2 ∧ c.2 ≤ dwi.vols.length := by
    intro c hc
    have h := clusters_bounds hclok c hc
    exact ⟨by omega, h.2.2⟩
  refine ⟨b0_clusters_ok b0_mask, ?_, ?_⟩
  · show (List.enumFrom 0 (b0_clusters b0_mask)).foldl
        (fun ob p => ob.set p.1 (dwi.vols.getD p.2.1 (zeroVol dwi.spatial)))
        (List.replicate (b0_clusters b0_mask).length (zeroVol dwi.spatial)) = _
    have h := enum_set_ladder
      (fun c : ℕ × ℕ => dwi.vols.getD c.1 (zeroVol dwi.spatial))
      (zeroVol dwi.spatial) (b0_clusters b0_mask) 0 [] rfl
    simpa using h
  · have h := enum_mean_ladder dwi.vols dwi.spatial hvols
      (bsz.getD dwi.vols.length) hbs (b0_clusters b0_mask) 0 [] rfl hbounds
    have h2 : extract_b0 dwi b0_mask true B0ExtractionStrategy.MEAN bsz
        = (b0_clusters b0_mask).map (fun c =>
            scaleVol ((c.2 - c.1 : ℕ) : ℚ)
              (sumLastAxis dwi.spatial
                ((dwi.vols.drop c.1).take (c.2 - c.1)))) := by
      show (List.enumFrom 0 (b0_clusters b0_mask)).foldl
          (fun ob p =>
            ((volume_iterator dwi.vols (bsz.getD dwi.vols.length) p.2.1 p.2.2).foldl
              (fun ob2 blk =>
                ob2.set p.1 (addVol (ob2.getD p.1 (zeroVol dwi.spatial))
                  (sumLastAxis dwi.spatial blk.2))) ob).set p.1
              (scaleVol ((p.2.2 - p.2.1 : ℕ) : ℚ)
                (((volume_iterator dwi.vols (bsz.getD dwi.vols.length)
                    p.2.1 p.2.2).foldl
                  (fun ob2 blk =>
                    ob2.set p.1 (addVol (ob2.getD p.1 (zeroVol dwi.spatial))
                      (sumLastAxis dwi.spatial blk.2))) ob).getD p.1
                  (zeroVol dwi.spatial))))
          (List.replicate (b0_clusters b0_mask).length (zeroVol dwi.spatial))
          = _
      simp only [volume_iterator]
      simpa using h
    rw [h2]
    apply List.map_congr_left
    intro c hc
    congr 1
    rw [drop_take_eq_map_range' dwi.vols (zeroVol dwi.spatial) c.1 (c.2 - c.1)
      (by have := hbounds c hc; omega)]

theorem C2_extract_b0_flat_witness :
    ([true, false, true, true] : List Bool).length
      = ([[1], [2], [3], [4]] : List Volume).length ∧
    (∀ v ∈ ([[1], [2], [3], [4]] : List Volume), v.length = 1) ∧
    (0 : ℕ) < (Option.some 1).getD ([[1], [2], [3], [4]] : List Volume).length ∧
    (∃ i, ([true, false, true, true] : List Bool).getD i false = true) ∧
    ((∀ i0, ([true, false, true, true] : List Bool).getD i0 false = true →
      (∀ j, j < i0 → ([true, false, true, true] : List Bool).getD j false = false) →
      extract_b0 ⟨1, [[1], [2], [3], [4]]⟩ [true, false, true, true] false
          B0ExtractionStrategy.FIRST (some 1)
        = [([[1], [2], [3], [4]] : List Volume).getD i0 (zeroVol 1)]) ∧
    (((List.range ([true, false, true, true] : List Bool).length).filter
        fun i => ([true, false, true, true] : List Bool).getD i false).Pairwise
          (· < ·) ∧
      extract_b0 ⟨1, [[1], [2], [3], [4]]⟩ [true, false, true, true] false
          B0ExtractionStrategy.ALL (some 1)
        = ((List.range ([true, false, true, true] : List Bool).length).filter
            fun i => ([true, false, true, true] : List Bool).getD i false).map
              fun i => ([[1], [2], [3], [4]] : List Volume).getD i (zeroVol 1)) ∧
    (extract_b0 ⟨1, [[1], [2], [3], [4]]⟩ [true, false, true, true] false
        B0ExtractionStrategy.MEAN (some 1)
      = [scaleVol
          ((((List.range ([true, false, true, true] : List Bool).length).filter
              fun i => ([true, false, true, true] : List Bool).getD i false)).length : ℚ)
          (sumLastAxis 1
            (((List.range ([true, false, true, true] : List Bool).length).filter
                fun i => ([true, false, true, true] : List Bool).getD i false).map
              fun i => ([[1], [2], [3], [4]] : List Volume).getD i (zeroVol 1)))])) :=
  ⟨rfl, by decide, by decide, ⟨0, rfl⟩,
   C2_extract_b0_flat ⟨1, [[1], [2], [3], [4]]⟩ [true, false, true, true]
     (some 1) rfl (by decide) (by decide) ⟨0, rfl⟩⟩

theorem C3_extract_b0_clustered_witness :
    ([true, false, true, true] : List Bool).length
      = ([[1], [2], [3], [4]] : List Volume).length ∧
    (∀ v ∈ ([[1], [2], [3], [4]] : List Volume), v.length = 1) ∧
    (0 : ℕ) < (Option.some 2).getD ([[1], [2], [3], [4]] : List Volume).length ∧
    (∃ i, ([true, false, true, true] : List Bool).getD i false = true) ∧
    (ClustersOK (fun i => ([true, false, true, true] : List Bool).getD i false)
        ([true, false, true, true] : List Bool).length 0
        (b0_clusters [true, false, true, true]) ∧
    extract_b0 ⟨1, [[1], [2], [3], [4]]⟩ [true, false, true, true] true
        B0ExtractionStrategy.FIRST (some 2)
      = (b0_clusters [true, false, true, true]).map
          (fun c => ([[1], [2], [3], [4]] : List Volume).getD c.1 (zeroVol 1)) ∧
    extract_b0 ⟨1, [[1], [2], [3], [4]]⟩ [true, false, true, true] true
        B0ExtractionStrategy.MEAN (some 2)
      = (b0_clusters [true, false, true, true]).map
          (fun c => scaleVol ((c.2 - c.1 : ℕ) : ℚ)
            (sumLastAxis 1
              ((List.range' c.1 (c.2 - c.1)).map
                fun i => ([[1], [2], [3], [4]] : List Volume).getD i (zeroVol 1))))) :=
  ⟨rfl, by decide, by decide, ⟨0, rfl⟩,
   C3_extract_b0_clustered ⟨1, [[1], [2], [3], [4]]⟩ [true, false, true, true]
     (some 2) rfl (by decide) (by decide) ⟨0, rfl⟩⟩
